import Mathlib

/-!
Verification of three program kernels against their natural-language
specification: a tic-tac-toe minimax player, a heredity Bayesian-inference
script, and a PageRank estimator.  Each kernel is shallowly embedded:
Python floats become exact rationals, Python dicts become association
lists or functions, and raised exceptions become `Except` values.
-/

set_option maxHeartbeats 1000000

namespace TicTacToe

/-- Cell state of the 3×3 board: `EMPTY = None`, `X = "X"`, `O = "O"`. -/
inductive Cell where
  | e
  | x
  | o
deriving DecidableEq, Repr

/-- The board is a list of three rows of three cells (Python list of lists). -/
abbrev Board := List (List Cell)

/-- An action is a `(row, column)` pair. -/
abbrev Action := Nat × Nat

/-- `board[r][c]`, with an `EMPTY` default for out-of-range indices
(in-range indices are the only ones the program ever uses). -/
def getCell (b : Board) (r c : Nat) : Cell := (b.getD r []).getD c .e

/-- `initial_state()`: the empty 3×3 board. -/
def initial_state : Board :=
  [[.e, .e, .e], [.e, .e, .e], [.e, .e, .e]]

/-- The counting loop of `player`: number of cells of `b` equal to `m`,
scanning `r, c ∈ range(3)`. -/
def countMark (m : Cell) (b : Board) : Nat :=
  ((List.range 3).map fun r =>
    ((List.range 3).map fun c => if getCell b r c = m then 1 else 0).sum).sum

/-- `player(board)`: X moves when the two counts are equal, O otherwise. -/
def player (b : Board) : Cell :=
  if countMark .x b = countMark .o b then .x else .o

/-- `actions(board)`: all `(row, cell)` coordinates whose cell is empty.
The Python set is modelled as a row-major list. -/
def actions (b : Board) : List Action :=
  (List.range 3).flatMap fun r =>
    ((List.range 3).filter fun c => getCell b r c == .e).map fun c => (r, c)

/-- The successful branch of `result`: deep-copy the board and place the
current player's mark at the requested cell. -/
def place (b : Board) (a : Action) : Board :=
  b.set a.1 ((b.getD a.1 []).set a.2 (player b))

/-- `result(board, action)`: raises `Exception("Illegal aciton")` (sic) when
the target cell is occupied, otherwise returns the updated copy. -/
def result (b : Board) (a : Action) : Except String Board :=
  if getCell b a.1 a.2 ≠ .e then .error "Illegal aciton"
  else .ok (place b a)

/-- Whether `p` owns a complete row, column, or diagonal of `b`
(the body of one iteration of `winner`'s player loop). -/
def hasLine (b : Board) (p : Cell) : Bool :=
  ((List.range 3).any fun i =>
      getCell b i 0 == p && getCell b i 1 == p && getCell b i 2 == p) ||
  ((List.range 3).any fun i =>
      getCell b 0 i == p && getCell b 1 i == p && getCell b 2 i == p) ||
  (getCell b 0 0 == p && getCell b 1 1 == p && getCell b 2 2 == p) ||
  (getCell b 0 2 == p && getCell b 1 1 == p && getCell b 2 0 == p)

/-- `winner(board)`: O's lines are checked before X's, `None` if no line. -/
def winner (b : Board) : Option Cell :=
  if hasLine b .o then some .o
  else if hasLine b .x then some .x
  else none

/-- The no-empty-cell scan at the end of `terminal`. -/
def boardFull (b : Board) : Bool :=
  (List.range 3).all fun r =>
    (List.range 3).all fun c => !(getCell b r c == .e)

/-- `terminal(board)`: a winner exists or no empty cell remains. -/
def terminal (b : Board) : Bool :=
  (winner b).isSome || boardFull b

/-- `utility(board)`: 1 if X won, -1 if O won, 0 otherwise. -/
def utility (b : Board) : Int :=
  if winner b = some .x then 1
  else if winner b = some .o then -1
  else 0

/-- A board is well-formed when it is an actual 3×3 grid; every board the
program builds from `initial_state` has this shape. -/
def WF (b : Board) : Prop :=
  ∃ a₀ a₁ a₂ a₃ a₄ a₅ a₆ a₇ a₈ : Cell,
    b = [[a₀, a₁, a₂], [a₃, a₄, a₅], [a₆, a₇, a₈]]

theorem WF_initial : WF initial_state :=
  ⟨.e, .e, .e, .e, .e, .e, .e, .e, .e, rfl⟩

/-- Membership in the `actions` list. -/
theorem mem_actions {b : Board} {a : Action} :
    a ∈ actions b ↔ a.1 < 3 ∧ a.2 < 3 ∧ getCell b a.1 a.2 = .e := by
  obtain ⟨r, c⟩ := a
  simp only [actions, List.mem_flatMap, List.mem_map, List.mem_filter,
    List.mem_range, beq_iff_eq, Prod.mk.injEq]
  constructor
  · rintro ⟨r', hr', c', ⟨hc', hcell⟩, rfl, rfl⟩
    exact ⟨hr', hc', hcell⟩
  · rintro ⟨hr, hc, hcell⟩
    exact ⟨r, hr, c, ⟨hc, hcell⟩, rfl, rfl⟩

theorem countMark_explode (m a₀ a₁ a₂ a₃ a₄ a₅ a₆ a₇ a₈ : Cell) :
    countMark m [[a₀, a₁, a₂], [a₃, a₄, a₅], [a₆, a₇, a₈]] =
      (if a₀ = m then 1 else 0) + (if a₁ = m then 1 else 0) +
      (if a₂ = m then 1 else 0) + (if a₃ = m then 1 else 0) +
      (if a₄ = m then 1 else 0) + (if a₅ = m then 1 else 0) +
      (if a₆ = m then 1 else 0) + (if a₇ = m then 1 else 0) +
      (if a₈ = m then 1 else 0) := by
  simp [countMark, getCell, List.range_succ]
  ring

theorem getCell_x00 (a₀ a₁ a₂ a₃ a₄ a₅ a₆ a₇ a₈ : Cell) :
    getCell [[a₀, a₁, a₂], [a₃, a₄, a₅], [a₆, a₇, a₈]] 0 0 = a₀ := rfl

theorem getCell_x01 (a₀ a₁ a₂ a₃ a₄ a₅ a₆ a₇ a₈ : Cell) :
    getCell [[a₀, a₁, a₂], [a₃, a₄, a₅], [a₆, a₇, a₈]] 0 1 = a₁ := rfl

theorem getCell_x02 (a₀ a₁ a₂ a₃ a₄ a₅ a₆ a₇ a₈ : Cell) :
    getCell [[a₀, a₁, a₂], [a₃, a₄, a₅], [a₆, a₇, a₈]] 0 2 = a₂ := rfl

theorem getCell_x10 (a₀ a₁ a₂ a₃ a₄ a₅ a₆ a₇ a₈ : Cell) :
    getCell [[a₀, a₁, a₂], [a₃, a₄, a₅], [a₆, a₇, a₈]] 1 0 = a₃ := rfl

theorem getCell_x11 (a₀ a₁ a₂ a₃ a₄ a₅ a₆ a₇ a₈ : Cell) :
    getCell [[a₀, a₁, a₂], [a₃, a₄, a₅], [a₆, a₇, a₈]] 1 1 = a₄ := rfl

theorem getCell_x12 (a₀ a₁ a₂ a₃ a₄ a₅ a₆ a₇ a₈ : Cell) :
    getCell [[a₀, a₁, a₂], [a₃, a₄, a₅], [a₆, a₇, a₈]] 1 2 = a₅ := rfl

theorem getCell_x20 (a₀ a₁ a₂ a₃ a₄ a₅ a₆ a₇ a₈ : Cell) :
    getCell [[a₀, a₁, a₂], [a₃, a₄, a₅], [a₆, a₇, a₈]] 2 0 = a₆ := rfl

theorem getCell_x21 (a₀ a₁ a₂ a₃ a₄ a₅ a₆ a₇ a₈ : Cell) :
    getCell [[a₀, a₁, a₂], [a₃, a₄, a₅], [a₆, a₇, a₈]] 2 1 = a₇ := rfl

theorem getCell_x22 (a₀ a₁ a₂ a₃ a₄ a₅ a₆ a₇ a₈ : Cell) :
    getCell [[a₀, a₁, a₂], [a₃, a₄, a₅], [a₆, a₇, a₈]] 2 2 = a₈ := rfl

theorem place_x00 (a₀ a₁ a₂ a₃ a₄ a₅ a₆ a₇ a₈ : Cell) :
    place [[a₀, a₁, a₂], [a₃, a₄, a₅], [a₆, a₇, a₈]] (0, 0) =
      [[player [[a₀, a₁, a₂], [a₃, a₄, a₅], [a₆, a₇, a₈]], a₁, a₂], [a₃, a₄, a₅], [a₆, a₇, a₈]] := rfl

theorem place_x01 (a₀ a₁ a₂ a₃ a₄ a₅ a₆ a₇ a₈ : Cell) :
    place [[a₀, a₁, a₂], [a₃, a₄, a₅], [a₆, a₇, a₈]] (0, 1) =
      [[a₀, player [[a₀, a₁, a₂], [a₃, a₄, a₅], [a₆, a₇, a₈]], a₂], [a₃, a₄, a₅], [a₆, a₇, a₈]] := rfl

theorem place_x02 (a₀ a₁ a₂ a₃ a₄ a₅ a₆ a₇ a₈ : Cell) :
    place [[a₀, a₁, a₂], [a₃, a₄, a₅], [a₆, a₇, a₈]] (0, 2) =
      [[a₀, a₁, player [[a₀, a₁, a₂], [a₃, a₄, a₅], [a₆, a₇, a₈]]], [a₃, a₄, a₅], [a₆, a₇, a₈]] := rfl

theorem place_x10 (a₀ a₁ a₂ a₃ a₄ a₅ a₆ a₇ a₈ : Cell) :
    place [[a₀, a₁, a₂], [a₃, a₄, a₅], [a₆, a₇, a₈]] (1, 0) =
      [[a₀, a₁, a₂], [player [[a₀, a₁, a₂], [a₃, a₄, a₅], [a₆, a₇, a₈]], a₄, a₅], [a₆, a₇, a₈]] := rfl

theorem place_x11 (a₀ a₁ a₂ a₃ a₄ a₅ a₆ a₇ a₈ : Cell) :
    place [[a₀, a₁, a₂], [a₃, a₄, a₅], [a₆, a₇, a₈]] (1, 1) =
      [[a₀, a₁, a₂], [a₃, player [[a₀, a₁, a₂], [a₃, a₄, a₅], [a₆, a₇, a₈]], a₅], [a₆, a₇, a₈]] := rfl

theorem place_x12 (a₀ a₁ a₂ a₃ a₄ a₅ a₆ a₇ a₈ : Cell) :
    place [[a₀, a₁, a₂], [a₃, a₄, a₅], [a₆, a₇, a₈]] (1, 2) =
      [[a₀, a₁, a₂], [a₃, a₄, player [[a₀, a₁, a₂], [a₃, a₄, a₅], [a₆, a₇, a₈]]], [a₆, a₇, a₈]] := rfl

theorem place_x20 (a₀ a₁ a₂ a₃ a₄ a₅ a₆ a₇ a₈ : Cell) :
    place [[a₀, a₁, a₂], [a₃, a₄, a₅], [a₆, a₇, a₈]] (2, 0) =
      [[a₀, a₁, a₂], [a₃, a₄, a₅], [player [[a₀, a₁, a₂], [a₃, a₄, a₅], [a₆, a₇, a₈]], a₇, a₈]] := rfl

theorem place_x21 (a₀ a₁ a₂ a₃ a₄ a₅ a₆ a₇ a₈ : Cell) :
    place [[a₀, a₁, a₂], [a₃, a₄, a₅], [a₆, a₇, a₈]] (2, 1) =
      [[a₀, a₁, a₂], [a₃, a₄, a₅], [a₆, player [[a₀, a₁, a₂], [a₃, a₄, a₅], [a₆, a₇, a₈]], a₈]] := rfl

theorem place_x22 (a₀ a₁ a₂ a₃ a₄ a₅ a₆ a₇ a₈ : Cell) :
    place [[a₀, a₁, a₂], [a₃, a₄, a₅], [a₆, a₇, a₈]] (2, 2) =
      [[a₀, a₁, a₂], [a₃, a₄, a₅], [a₆, a₇, player [[a₀, a₁, a₂], [a₃, a₄, a₅], [a₆, a₇, a₈]]]] := rfl

/-- The mark placed by `result` is never `EMPTY`. -/
theorem player_ne_e (b : Board) : player b ≠ .e := by
  unfold player; split <;> simp

/-- Frame part of `result`: cells other than the target are unchanged. -/
theorem getCell_place_ne {b : Board} {i j r c : Nat} (h : (r, c) ≠ (i, j)) :
    getCell (place b (i, j)) r c = getCell b r c := by
  unfold getCell place
  rcases eq_or_ne r i with rfl | hne
  · have hc : c ≠ j := fun hcj => h (by simp [hcj])
    rcases Nat.lt_or_ge r b.length with hr | hr
    · have : (b.set r ((b.getD r []).set j (player b))).getD r [] =
          (b.getD r []).set j (player b) := by
        simp [List.getD, List.getElem?_set, hr]
      rw [this]
      simp [List.getD, List.getElem?_set, hc.symm]
    · rw [List.set_eq_of_length_le hr]
  · simp [List.getD, List.getElem?_set, hne.symm]

/-- The target cell of `place` holds the mover's mark (in-range indices). -/
theorem getCell_place_eq {b : Board} (hWF : WF b) {i j : Nat}
    (hi : i < 3) (hj : j < 3) :
    getCell (place b (i, j)) i j = player b := by
  obtain ⟨a₀, a₁, a₂, a₃, a₄, a₅, a₆, a₇, a₈, rfl⟩ := hWF
  interval_cases i <;> interval_cases j <;> rfl

/-- `place` preserves the 3×3 shape. -/
theorem WF_place {b : Board} (hWF : WF b) (a : Action) : WF (place b a) := by
  obtain ⟨a₀, a₁, a₂, a₃, a₄, a₅, a₆, a₇, a₈, rfl⟩ := hWF
  obtain ⟨r, c⟩ := a
  unfold place
  match r, c with
  | 0, 0 => exact ⟨_, _, _, _, _, _, _, _, _, rfl⟩
  | 0, 1 => exact ⟨_, _, _, _, _, _, _, _, _, rfl⟩
  | 0, 2 => exact ⟨_, _, _, _, _, _, _, _, _, rfl⟩
  | 0, (n+3) => exact ⟨_, _, _, _, _, _, _, _, _, rfl⟩
  | 1, 0 => exact ⟨_, _, _, _, _, _, _, _, _, rfl⟩
  | 1, 1 => exact ⟨_, _, _, _, _, _, _, _, _, rfl⟩
  | 1, 2 => exact ⟨_, _, _, _, _, _, _, _, _, rfl⟩
  | 1, (n+3) => exact ⟨_, _, _, _, _, _, _, _, _, rfl⟩
  | 2, 0 => exact ⟨_, _, _, _, _, _, _, _, _, rfl⟩
  | 2, 1 => exact ⟨_, _, _, _, _, _, _, _, _, rfl⟩
  | 2, 2 => exact ⟨_, _, _, _, _, _, _, _, _, rfl⟩
  | 2, (n+3) => exact ⟨_, _, _, _, _, _, _, _, _, rfl⟩
  | (m+3), _ => exact ⟨_, _, _, _, _, _, _, _, _, rfl⟩

/-- Placing a mark on an empty in-range cell adds one cell equal to the
mover's mark and leaves the other non-empty counts unchanged. -/
theorem countMark_place {b : Board} (hWF : WF b) {r c : Nat}
    (hr : r < 3) (hc : c < 3) (he : getCell b r c = .e)
    {m : Cell} (hm : m ≠ .e) :
    countMark m (place b (r, c)) =
      countMark m b + (if player b = m then 1 else 0) := by
  obtain ⟨a₀, a₁, a₂, a₃, a₄, a₅, a₆, a₇, a₈, rfl⟩ := hWF
  interval_cases r <;> interval_cases c <;>
    simp only [getCell_x00, getCell_x01, getCell_x02, getCell_x10, getCell_x11,
      getCell_x12, getCell_x20, getCell_x21, getCell_x22] at he <;>
    subst he <;>
    simp only [place_x00, place_x01, place_x02, place_x10, place_x11,
      place_x12, place_x20, place_x21, place_x22,
      countMark_explode, Ne.symm hm, if_false] <;>
    ring

/-- Placing a mark on an empty in-range cell removes exactly one empty. -/
theorem countE_place {b : Board} (hWF : WF b) {r c : Nat}
    (hr : r < 3) (hc : c < 3) (he : getCell b r c = .e) :
    countMark .e (place b (r, c)) + 1 = countMark .e b := by
  obtain ⟨a₀, a₁, a₂, a₃, a₄, a₅, a₆, a₇, a₈, rfl⟩ := hWF
  interval_cases r <;> interval_cases c <;>
    simp only [getCell_x00, getCell_x01, getCell_x02, getCell_x10, getCell_x11,
      getCell_x12, getCell_x20, getCell_x21, getCell_x22] at he <;>
    subst he <;>
    simp only [place_x00, place_x01, place_x02, place_x10, place_x11,
      place_x12, place_x20, place_x21, place_x22, countMark_explode,
      player_ne_e, if_false, eq_self_iff_true, if_true] <;>
    ring

/-- `result b a` succeeds exactly on empty target cells, and then produces
the board with the mover's mark placed. -/
theorem result_ok_iff {b : Board} {a : Action} {b' : Board} :
    result b a = .ok b' ↔ getCell b a.1 a.2 = .e ∧ b' = place b a := by
  unfold result
  split
  · rename_i h
    simp [h]
  · rename_i h
    rw [not_not] at h
    simp [h, eq_comm]

/-- C7: applying `result` to an occupied cell fails with the IllegalAction
error; applying it to an empty cell returns a fresh board that holds the
mover's mark at the target and agrees with the input at every other cell
(the input board, being a pure value, is left unmodified). -/
theorem result_frame_spec (b : Board) (hWF : WF b) (i j : Nat)
    (hi : i < 3) (hj : j < 3) :
    (getCell b i j ≠ .e → result b (i, j) = .error "Illegal aciton") ∧
    (getCell b i j = .e →
      result b (i, j) = .ok (place b (i, j)) ∧
      getCell (place b (i, j)) i j = player b ∧
      ∀ r c : Nat, (r, c) ≠ (i, j) →
        getCell (place b (i, j)) r c = getCell b r c) := by
  refine ⟨fun h => ?_, fun h => ⟨?_, getCell_place_eq hWF hi hj,
    fun r c hne => getCell_place_ne hne⟩⟩
  · simp [result, h]
  · simp [result, h]

/-- Witness for `result_frame_spec` at the empty board and cell (0, 0). -/
theorem result_frame_spec_witness :
    result initial_state (0, 0) = .ok (place initial_state (0, 0)) ∧
    getCell (place initial_state (0, 0)) 0 0 = player initial_state := by
  have h := result_frame_spec initial_state WF_initial 0 0
    (by decide) (by decide)
  exact ⟨(h.2 rfl).1, (h.2 rfl).2.1⟩

/-- Boards reachable from `initial_state()` by repeated legal (successful)
applications of `result`. -/
inductive Reachable : Board → Prop where
  | base : Reachable initial_state
  | step {b b' : Board} {a : Action} : Reachable b → a ∈ actions b →
      result b a = .ok b' → Reachable b'

/-- One legal move preserves well-formedness and the mark balance. -/
theorem step_WF_balance {b : Board} (hWF : WF b)
    (hbal : countMark .x b = countMark .o b ∨
      countMark .x b = countMark .o b + 1)
    {a : Action} (hact : a ∈ actions b) :
    WF (place b a) ∧
      (countMark .x (place b a) = countMark .o (place b a) ∨
        countMark .x (place b a) = countMark .o (place b a) + 1) := by
  obtain ⟨r, c⟩ := a
  obtain ⟨hr, hc, he⟩ := mem_actions.mp hact
  refine ⟨WF_place hWF _, ?_⟩
  have hx := countMark_place hWF hr hc he (show Cell.x ≠ Cell.e by decide)
  have ho := countMark_place hWF hr hc he (show Cell.o ≠ Cell.e by decide)
  by_cases heq : countMark .x b = countMark .o b
  · have hp : player b = Cell.x := by simp [player, heq]
    rw [hx, ho, hp]
    simp
    omega
  · have hp : player b = Cell.o := by simp [player, heq]
    rw [hx, ho, hp]
    simp
    omega

/-- Every reachable board is a well-formed grid with balanced marks. -/
theorem reachable_inv {b : Board} (h : Reachable b) :
    WF b ∧ (countMark .x b = countMark .o b ∨
      countMark .x b = countMark .o b + 1) := by
  induction h with
  | base => exact ⟨WF_initial, Or.inl rfl⟩
  | step _ hact hres ih =>
    obtain ⟨he, rfl⟩ := result_ok_iff.mp hres
    exact step_WF_balance ih.1 ih.2 hact

/-- C8: on every board reachable from the initial state by legal
applications of `result`, the number of X cells minus the number of O cells
is 0 or 1. -/
theorem reachable_mark_balance {b : Board} (h : Reachable b) :
    countMark .x b = countMark .o b ∨
      countMark .x b = countMark .o b + 1 :=
  (reachable_inv h).2

/-- Witness for `reachable_mark_balance` at the initial board. -/
theorem reachable_mark_balance_witness :
    countMark .x initial_state = countMark .o initial_state ∨
      countMark .x initial_state = countMark .o initial_state + 1 :=
  reachable_mark_balance Reachable.base

/-- `result` specialised to legal moves: for `a ∈ actions b` the exception
branch is impossible; it is mapped back to `b` only to keep the function
total (the source would raise there, which no search call path reaches). -/
def resultD (b : Board) (a : Action) : Board := ((result b a).toOption).getD b

theorem resultD_eq_place {b : Board} {a : Action}
    (h : getCell b a.1 a.2 = .e) : resultD b a = place b a := by
  simp [resultD, result, h, Except.toOption]

mutual

/-- `max_value(board)` with explicit recursion fuel (the source recursion
terminates because each move removes an empty cell); `-2` models the
`-math.inf` starting accumulator, strictly below every game value. -/
def maxValueF : Nat → Board → Int
  | 0, b => utility b
  | n + 1, b =>
    if terminal b then utility b
    else (actions b).foldl (fun v a => max v (minValueF n (resultD b a))) (-2)

/-- `min_value(board)` with fuel; `2` models the `math.inf` accumulator. -/
def minValueF : Nat → Board → Int
  | 0, b => utility b
  | n + 1, b =>
    if terminal b then utility b
    else (actions b).foldl (fun v a => min v (maxValueF n (resultD b a))) 2

end

theorem foldlMax_init_le {α : Type} (f : α → Int) :
    ∀ (l : List α) (c : Int), c ≤ l.foldl (fun v a => max v (f a)) c := by
  intro l
  induction l with
  | nil => intro c; exact le_refl c
  | cons a rest ih =>
    intro c
    exact le_trans (le_max_left c (f a)) (ih (max c (f a)))

theorem le_foldlMax {α : Type} (f : α → Int) :
    ∀ (l : List α) (c : Int) (x : α), x ∈ l →
      f x ≤ l.foldl (fun v a => max v (f a)) c := by
  intro l
  induction l with
  | nil => intro c x hx; cases hx
  | cons a rest ih =>
    intro c x hx
    rcases List.mem_cons.mp hx with rfl | hx
    · exact le_trans (le_max_right c (f x)) (foldlMax_init_le f rest _)
    · exact ih _ x hx

theorem foldlMax_le {α : Type} (f : α → Int) {v : Int} :
    ∀ (l : List α) (c : Int), c ≤ v → (∀ x ∈ l, f x ≤ v) →
      l.foldl (fun w a => max w (f a)) c ≤ v := by
  intro l
  induction l with
  | nil => intro c hc _; exact hc
  | cons a rest ih =>
    intro c hc hall
    exact ih _ (max_le hc (hall a (List.mem_cons_self a rest)))
      fun x hx => hall x (List.mem_cons_of_mem a hx)

theorem foldlMin_init_ge {α : Type} (f : α → Int) :
    ∀ (l : List α) (c : Int), l.foldl (fun v a => min v (f a)) c ≤ c := by
  intro l
  induction l with
  | nil => intro c; exact le_refl c
  | cons a rest ih =>
    intro c
    exact le_trans (ih (min c (f a))) (min_le_left c (f a))

theorem foldlMin_le {α : Type} (f : α → Int) :
    ∀ (l : List α) (c : Int) (x : α), x ∈ l →
      l.foldl (fun v a => min v (f a)) c ≤ f x := by
  intro l
  induction l with
  | nil => intro c x hx; cases hx
  | cons a rest ih =>
    intro c x hx
    rcases List.mem_cons.mp hx with rfl | hx
    · exact le_trans (foldlMin_init_ge f rest _) (min_le_right c (f x))
    · exact ih _ x hx

theorem foldlMin_ge {α : Type} (f : α → Int) {v : Int} :
    ∀ (l : List α) (c : Int), v ≤ c → (∀ x ∈ l, v ≤ f x) →
      v ≤ l.foldl (fun w a => min w (f a)) c := by
  intro l
  induction l with
  | nil => intro c hc _; exact hc
  | cons a rest ih =>
    intro c hc hall
    exact ih _ (le_min hc (hall a (List.mem_cons_self a rest)))
      fun x hx => hall x (List.mem_cons_of_mem a hx)

theorem utility_cases (b : Board) :
    utility b = 1 ∨ utility b = -1 ∨ utility b = 0 := by
  unfold utility
  split_ifs <;> simp

theorem utility_bounds (b : Board) : -1 ≤ utility b ∧ utility b ≤ 1 := by
  rcases utility_cases b with h | h | h <;> rw [h] <;> exact ⟨by omega, by omega⟩

theorem exists_empty_of_not_full {b : Board} (h : boardFull b = false) :
    ∃ r c, r < 3 ∧ c < 3 ∧ getCell b r c = .e := by
  by_contra hno
  push_neg at hno
  have htrue : boardFull b = true := by
    simp only [boardFull, List.all_eq_true, List.mem_range]
    intro r hr c hc
    simpa using hno r c hr hc
  rw [htrue] at h
  cases h

theorem exists_action_of_not_terminal {b : Board} (h : terminal b = false) :
    ∃ a, a ∈ actions b := by
  have hfull : boardFull b = false := by
    have h2 : winner b = none ∧ boardFull b = false := by simpa [terminal] using h
    exact h2.2
  obtain ⟨r, c, hr, hc, he⟩ := exists_empty_of_not_full hfull
  exact ⟨(r, c), mem_actions.mpr ⟨hr, hc, he⟩⟩

/-- Both fueled values stay within the utility range `[-1, 1]`. -/
theorem valueF_bounds : ∀ (n : Nat) (b : Board),
    (-1 ≤ maxValueF n b ∧ maxValueF n b ≤ 1) ∧
    (-1 ≤ minValueF n b ∧ minValueF n b ≤ 1) := by
  intro n
  induction n with
  | zero =>
    intro b
    simp only [maxValueF, minValueF]
    exact ⟨utility_bounds b, utility_bounds b⟩
  | succ n ih =>
    intro b
    by_cases ht : terminal b
    · simp only [maxValueF, minValueF, ht, if_true]
      exact ⟨utility_bounds b, utility_bounds b⟩
    · obtain ⟨a₀, ha₀⟩ := exists_action_of_not_terminal (by simpa using ht)
      simp only [maxValueF, minValueF, ht, if_false]
      refine ⟨⟨?_, ?_⟩, ?_, ?_⟩
      · exact le_trans (ih (resultD b a₀)).2.1
          (le_foldlMax _ (actions b) (-2) a₀ ha₀)
      · exact foldlMax_le _ (actions b) (-2) (by omega)
          fun x _ => (ih (resultD b x)).2.2
      · exact foldlMin_ge _ (actions b) 2 (by omega)
          fun x _ => (ih (resultD b x)).1.1
      · exact le_trans (foldlMin_le _ (actions b) 2 a₀ ha₀)
          (ih (resultD b a₀)).1.2

/-- The X branch of `minimax`'s loop: `v` starts at `-math.inf` (modelled
by the `none` accumulator) and an action is kept exactly when its value
strictly improves on the best so far. -/
def bestX (b : Board) (n : Nat) :
    Option (Int × Action) → List Action → Option (Int × Action)
  | acc, [] => acc
  | acc, a :: rest =>
    let w := minValueF n (resultD b a)
    match acc with
    | none => bestX b n (some (w, a)) rest
    | some (v, mv) =>
      if w > v then bestX b n (some (w, a)) rest
      else bestX b n (some (v, mv)) rest

/-- The O branch of `minimax`'s loop (`math.inf` start, strict improvement
downwards). -/
def bestO (b : Board) (n : Nat) :
    Option (Int × Action) → List Action → Option (Int × Action)
  | acc, [] => acc
  | acc, a :: rest =>
    let w := maxValueF n (resultD b a)
    match acc with
    | none => bestO b n (some (w, a)) rest
    | some (v, mv) =>
      if w < v then bestO b n (some (w, a)) rest
      else bestO b n (some (v, mv)) rest

/-- `minimax(board)`: `None` on a terminal board; otherwise the retained
optimal action for the current player.  Children are evaluated with fuel
`countMark .e b - 1`, exactly the number of empty cells each child has. -/
def minimax (b : Board) : Option Action :=
  if terminal b then none
  else if player b = .x then
    (bestX b (countMark .e b - 1) none (actions b)).map Prod.snd
  else
    (bestO b (countMark .e b - 1) none (actions b)).map Prod.snd

theorem bestX_spec {b : Board} {n : Nat} :
    ∀ (l : List Action) (acc : Option (Int × Action)) (v : Int) (mv : Action),
      bestX b n acc l = some (v, mv) →
      (acc = some (v, mv) ∨ (mv ∈ l ∧ minValueF n (resultD b mv) = v)) ∧
      (∀ x ∈ l, minValueF n (resultD b x) ≤ v) ∧
      (∀ w c, acc = some (w, c) → w ≤ v) := by
  intro l
  induction l with
  | nil =>
    intro acc v mv h
    simp only [bestX] at h
    refine ⟨Or.inl h, by simp, fun w c hacc => ?_⟩
    rw [hacc] at h
    cases h
    exact le_refl _
  | cons a rest ih =>
    intro acc v mv h
    simp only [bestX] at h
    rcases acc with _ | ⟨w0, c0⟩
    · have H := ih (some (minValueF n (resultD b a), a)) v mv h
      refine ⟨?_, ?_, by simp⟩
      · rcases H.1 with heq | hmem
        · cases heq
          exact Or.inr ⟨List.mem_cons_self a rest, rfl⟩
        · exact Or.inr ⟨List.mem_cons_of_mem a hmem.1, hmem.2⟩
      · intro x hx
        rcases List.mem_cons.mp hx with rfl | hx
        · exact H.2.2 _ _ rfl
        · exact H.2.1 x hx
    · have h' : (if minValueF n (resultD b a) > w0 then
          bestX b n (some (minValueF n (resultD b a), a)) rest
          else bestX b n (some (w0, c0)) rest) = some (v, mv) := h
      by_cases hgt : minValueF n (resultD b a) > w0
      · rw [if_pos hgt] at h'
        have H := ih (some (minValueF n (resultD b a), a)) v mv h'
        refine ⟨?_, ?_, ?_⟩
        · rcases H.1 with heq | hmem
          · cases heq
            exact Or.inr ⟨List.mem_cons_self a rest, rfl⟩
          · exact Or.inr ⟨List.mem_cons_of_mem a hmem.1, hmem.2⟩
        · intro x hx
          rcases List.mem_cons.mp hx with rfl | hx
          · exact H.2.2 _ _ rfl
          · exact H.2.1 x hx
        · intro w c hacc
          cases hacc
          exact le_of_lt (lt_of_lt_of_le hgt (H.2.2 _ _ rfl))
      · rw [if_neg hgt] at h'
        have H := ih (some (w0, c0)) v mv h'
        refine ⟨?_, ?_, ?_⟩
        · rcases H.1 with heq | hmem
          · exact Or.inl heq
          · exact Or.inr ⟨List.mem_cons_of_mem a hmem.1, hmem.2⟩
        · intro x hx
          rcases List.mem_cons.mp hx with rfl | hx
          · exact le_trans (le_of_not_lt hgt) (H.2.2 _ _ rfl)
          · exact H.2.1 x hx
        · exact H.2.2

theorem bestO_spec {b : Board} {n : Nat} :
    ∀ (l : List Action) (acc : Option (Int × Action)) (v : Int) (mv : Action),
      bestO b n acc l = some (v, mv) →
      (acc = some (v, mv) ∨ (mv ∈ l ∧ maxValueF n (resultD b mv) = v)) ∧
      (∀ x ∈ l, v ≤ maxValueF n (resultD b x)) ∧
      (∀ w c, acc = some (w, c) → v ≤ w) := by
  intro l
  induction l with
  | nil =>
    intro acc v mv h
    simp only [bestO] at h
    refine ⟨Or.inl h, by simp, fun w c hacc => ?_⟩
    rw [hacc] at h
    cases h
    exact le_refl _
  | cons a rest ih =>
    intro acc v mv h
    simp only [bestO] at h
    rcases acc with _ | ⟨w0, c0⟩
    · have H := ih (some (maxValueF n (resultD b a), a)) v mv h
      refine ⟨?_, ?_, by simp⟩
      · rcases H.1 with heq | hmem
        · cases heq
          exact Or.inr ⟨List.mem_cons_self a rest, rfl⟩
        · exact Or.inr ⟨List.mem_cons_of_mem a hmem.1, hmem.2⟩
      · intro x hx
        rcases List.mem_cons.mp hx with rfl | hx
        · exact H.2.2 _ _ rfl
        · exact H.2.1 x hx
    · have h' : (if maxValueF n (resultD b a) < w0 then
          bestO b n (some (maxValueF n (resultD b a), a)) rest
          else bestO b n (some (w0, c0)) rest) = some (v, mv) := h
      by_cases hlt : maxValueF n (resultD b a) < w0
      · rw [if_pos hlt] at h'
        have H := ih (some (maxValueF n (resultD b a), a)) v mv h'
        refine ⟨?_, ?_, ?_⟩
        · rcases H.1 with heq | hmem
          · cases heq
            exact Or.inr ⟨List.mem_cons_self a rest, rfl⟩
          · exact Or.inr ⟨List.mem_cons_of_mem a hmem.1, hmem.2⟩
        · intro x hx
          rcases List.mem_cons.mp hx with rfl | hx
          · exact H.2.2 _ _ rfl
          · exact H.2.1 x hx
        · intro w c hacc
          cases hacc
          exact le_of_lt (lt_of_le_of_lt (H.2.2 _ _ rfl) hlt)
      · rw [if_neg hlt] at h'
        have H := ih (some (w0, c0)) v mv h'
        refine ⟨?_, ?_, ?_⟩
        · rcases H.1 with heq | hmem
          · exact Or.inl heq
          · exact Or.inr ⟨List.mem_cons_of_mem a hmem.1, hmem.2⟩
        · intro x hx
          rcases List.mem_cons.mp hx with rfl | hx
          · exact le_trans (H.2.2 _ _ rfl) (le_of_not_lt hlt)
          · exact H.2.1 x hx
        · exact H.2.2

theorem bestX_isSome {b : Board} {n : Nat} :
    ∀ (l : List Action) (p : Int × Action), ∃ q, bestX b n (some p) l = some q := by
  intro l
  induction l with
  | nil => intro p; exact ⟨p, rfl⟩
  | cons a rest ih =>
    intro p
    obtain ⟨v, mv⟩ := p
    show ∃ q, (if minValueF n (resultD b a) > v then
        bestX b n (some (minValueF n (resultD b a), a)) rest
        else bestX b n (some (v, mv)) rest) = some q
    split
    · exact ih _
    · exact ih _

theorem bestO_isSome {b : Board} {n : Nat} :
    ∀ (l : List Action) (p : Int × Action), ∃ q, bestO b n (some p) l = some q := by
  intro l
  induction l with
  | nil => intro p; exact ⟨p, rfl⟩
  | cons a rest ih =>
    intro p
    obtain ⟨v, mv⟩ := p
    show ∃ q, (if maxValueF n (resultD b a) < v then
        bestO b n (some (maxValueF n (resultD b a), a)) rest
        else bestO b n (some (v, mv)) rest) = some q
    split
    · exact ih _
    · exact ih _

/-- `minimax` always returns an action on a non-terminal board. -/
theorem minimax_some {b : Board} (h : terminal b = false) :
    ∃ a, minimax b = some a := by
  obtain ⟨a₀, ha₀⟩ := exists_action_of_not_terminal h
  obtain ⟨a₁, rest, hcons⟩ := List.exists_cons_of_ne_nil (List.ne_nil_of_mem ha₀)
  unfold minimax
  rw [h]
  simp only [Bool.false_eq_true, if_false]
  split
  · obtain ⟨q, hq⟩ : ∃ q, bestX b (countMark .e b - 1) none (actions b) = some q := by
      rw [hcons]
      show ∃ q, bestX b _ (some (minValueF _ (resultD b a₁), a₁)) rest = some q
      exact bestX_isSome rest _
    exact ⟨q.2, by rw [hq]; rfl⟩
  · obtain ⟨q, hq⟩ : ∃ q, bestO b (countMark .e b - 1) none (actions b) = some q := by
      rw [hcons]
      show ∃ q, bestO b _ (some (maxValueF _ (resultD b a₁), a₁)) rest = some q
      exact bestO_isSome rest _
    exact ⟨q.2, by rw [hq]; rfl⟩

theorem maxValueF_terminal {b : Board} (h : terminal b = true) :
    ∀ n, maxValueF n b = utility b := by
  intro n
  cases n <;> simp [maxValueF, h]

theorem minValueF_terminal {b : Board} (h : terminal b = true) :
    ∀ n, minValueF n b = utility b := by
  intro n
  cases n <;> simp [minValueF, h]

theorem countE_pos {b : Board} (hWF : WF b) {r c : Nat} (hr : r < 3)
    (hc : c < 3) (he : getCell b r c = .e) : 0 < countMark .e b := by
  obtain ⟨a₀, a₁, a₂, a₃, a₄, a₅, a₆, a₇, a₈, rfl⟩ := hWF
  interval_cases r <;> interval_cases c <;>
    simp only [getCell_x00, getCell_x01, getCell_x02, getCell_x10, getCell_x11,
      getCell_x12, getCell_x20, getCell_x21, getCell_x22] at he <;>
    subst he <;> rw [countMark_explode] <;> simp

theorem full_of_countE_zero {b : Board} (hWF : WF b)
    (h : countMark .e b = 0) : boardFull b = true := by
  cases hb : boardFull b
  · obtain ⟨r, c, hr, hc, he⟩ := exists_empty_of_not_full hb
    have := countE_pos hWF hr hc he
    omega
  · rfl

theorem countE_pos_of_not_terminal {b : Board} (hWF : WF b)
    (h : terminal b = false) : 0 < countMark .e b := by
  obtain ⟨⟨r, c⟩, ha⟩ := exists_action_of_not_terminal h
  obtain ⟨hr, hc, he⟩ := mem_actions.mp ha
  exact countE_pos hWF hr hc he

/-- After a legal move, the turn passes to the other player. -/
theorem player_place {b : Board} (hWF : WF b)
    (hbal : countMark .x b = countMark .o b ∨
      countMark .x b = countMark .o b + 1)
    {a : Action} (ha : a ∈ actions b) :
    player (place b a) = (if player b = .x then Cell.o else Cell.x) := by
  obtain ⟨r, c⟩ := a
  obtain ⟨hr, hc, he⟩ := mem_actions.mp ha
  have hx := countMark_place hWF hr hc he (show Cell.x ≠ Cell.e by decide)
  have ho := countMark_place hWF hr hc he (show Cell.o ≠ Cell.e by decide)
  by_cases heq : countMark .x b = countMark .o b
  · have hp : player b = Cell.x := by simp [player, heq]
    rw [hp, if_pos rfl, player, hx, ho, hp]
    rw [if_neg (by simp; omega)]
  · have hp : player b = Cell.o := by simp [player, heq]
    have hbal1 : countMark .x b = countMark .o b + 1 := hbal.resolve_left heq
    rw [hp, if_neg (by decide), player, hx, ho, hp]
    rw [if_pos (by simp; omega)]

/-- The number of empties decreases by one with each legal move. -/
theorem countE_place_eq {b : Board} (hWF : WF b) {a : Action}
    (ha : a ∈ actions b) :
    countMark .e (place b a) = countMark .e b - 1 := by
  obtain ⟨r, c⟩ := a
  have hm := mem_actions.mp ha
  have hr : r < 3 := hm.1
  have hc : c < 3 := hm.2.1
  have he : getCell b r c = .e := hm.2.2
  have h2 : countMark .e (place b (r, c)) + 1 = countMark .e b :=
    countE_place hWF hr hc he
  omega

/-- On a non-terminal board with X to move, `minimax` returns a legal
action achieving the `max_value` of the board. -/
theorem minimax_opt_x {b : Board} (hWF : WF b) (ht : terminal b = false)
    (hp : player b = .x) {a : Action} (hm : minimax b = some a) :
    a ∈ actions b ∧
      minValueF (countMark .e b - 1) (resultD b a) =
        maxValueF (countMark .e b) b := by
  have hmm : (bestX b (countMark .e b - 1) none (actions b)).map Prod.snd
      = some a := by
    unfold minimax at hm
    rw [ht] at hm
    simpa [hp] using hm
  obtain ⟨⟨v, mv⟩, hq, hsnd⟩ := Option.map_eq_some'.mp hmm
  cases hsnd
  have H := bestX_spec (actions b) none v mv hq
  have hmem : mv ∈ actions b ∧
      minValueF (countMark .e b - 1) (resultD b mv) = v :=
    H.1.resolve_left (by simp)
  have hvlb : (-1 : Int) ≤ v :=
    hmem.2 ▸ (valueF_bounds (countMark .e b - 1) (resultD b mv)).2.1
  have hk : countMark .e b - 1 + 1 = countMark .e b := by
    have := countE_pos_of_not_terminal hWF ht
    omega
  have hunfold : maxValueF (countMark .e b) b =
      (actions b).foldl
        (fun w x => max w (minValueF (countMark .e b - 1) (resultD b x)))
        (-2) := by
    conv_lhs => rw [← hk]
    simp [maxValueF, ht]
  refine ⟨hmem.1, ?_⟩
  rw [hunfold, hmem.2]
  refine le_antisymm ?_ ?_
  · exact hmem.2 ▸ le_foldlMax _ (actions b) (-2) mv hmem.1
  · exact foldlMax_le _ (actions b) (-2) (by omega) H.2.1

/-- On a non-terminal board with O to move, `minimax` returns a legal
action achieving the `min_value` of the board. -/
theorem minimax_opt_o {b : Board} (hWF : WF b) (ht : terminal b = false)
    (hp : player b = .o) {a : Action} (hm : minimax b = some a) :
    a ∈ actions b ∧
      maxValueF (countMark .e b - 1) (resultD b a) =
        minValueF (countMark .e b) b := by
  have hmm : (bestO b (countMark .e b - 1) none (actions b)).map Prod.snd
      = some a := by
    unfold minimax at hm
    rw [ht] at hm
    simpa [hp] using hm
  obtain ⟨⟨v, mv⟩, hq, hsnd⟩ := Option.map_eq_some'.mp hmm
  cases hsnd
  have H := bestO_spec (actions b) none v mv hq
  have hmem : mv ∈ actions b ∧
      maxValueF (countMark .e b - 1) (resultD b mv) = v :=
    H.1.resolve_left (by simp)
  have hvub : v ≤ (1 : Int) :=
    hmem.2 ▸ (valueF_bounds (countMark .e b - 1) (resultD b mv)).1.2
  have hk : countMark .e b - 1 + 1 = countMark .e b := by
    have := countE_pos_of_not_terminal hWF ht
    omega
  have hunfold : minValueF (countMark .e b) b =
      (actions b).foldl
        (fun w x => min w (maxValueF (countMark .e b - 1) (resultD b x)))
        2 := by
    conv_lhs => rw [← hk]
    simp [minValueF, ht]
  refine ⟨hmem.1, ?_⟩
  rw [hunfold, hmem.2]
  refine le_antisymm ?_ ?_
  · exact foldlMin_ge _ (actions b) 2 (by omega) H.2.1
  · exact hmem.2 ▸ foldlMin_le _ (actions b) 2 mv hmem.1

/-- Optimal self-play: both sides repeatedly apply the action returned by
`minimax` (fuel bounds the number of moves; 9 suffices from the empty
board). -/
def play : Nat → Board → Board
  | 0, b => b
  | n + 1, b =>
    if terminal b then b
    else
      match minimax b with
      | some a => play n (resultD b a)
      | none => b

/-- The minimax value of a board from the mover's standpoint, with the
exact fuel (number of empty cells). -/
def gameValue (b : Board) : Int :=
  if player b = .x then maxValueF (countMark .e b) b
  else minValueF (countMark .e b) b

theorem player_eq_o_of_ne_x {b : Board} (hp : ¬ player b = .x) :
    player b = .o := by
  by_cases h : countMark .x b = countMark .o b
  · exact absurd (by simp [player, h]) hp
  · simp [player, h]

theorem gameValue_terminal {b : Board} (ht : terminal b = true) :
    gameValue b = utility b := by
  unfold gameValue
  split
  · exact maxValueF_terminal ht _
  · exact minValueF_terminal ht _

/-- Core invariant: from a well-formed, balanced board of value 0, optimal
self-play ends in a terminal board of utility 0. -/
theorem play_inv : ∀ (n : Nat) (b : Board), WF b →
    (countMark .x b = countMark .o b ∨
      countMark .x b = countMark .o b + 1) →
    countMark .e b ≤ n → gameValue b = 0 →
    terminal (play n b) = true ∧ utility (play n b) = 0 := by
  intro n
  induction n with
  | zero =>
    intro b hWF hbal hle hval
    have h0 : countMark .e b = 0 := Nat.le_zero.mp hle
    have hfull : boardFull b = true := full_of_countE_zero hWF h0
    have ht : terminal b = true := by simp [terminal, hfull]
    refine ⟨ht, ?_⟩
    show utility b = 0
    rw [← gameValue_terminal ht]
    exact hval
  | succ n ih =>
    intro b hWF hbal hle hval
    by_cases ht : terminal b = true
    · have hplay : play (n + 1) b = b := by simp [play, ht]
      rw [hplay]
      exact ⟨ht, by rw [← gameValue_terminal ht]; exact hval⟩
    · have htf : terminal b = false := by
        cases h : terminal b
        · rfl
        · exact absurd h ht
      obtain ⟨a, ha⟩ := minimax_some htf
      have hplay : play (n + 1) b = play n (resultD b a) := by
        simp [play, htf, ha]
      have hmem0 : a ∈ actions b ∧ True := by
        by_cases hp : player b = .x
        · exact ⟨(minimax_opt_x hWF htf hp ha).1, trivial⟩
        · have hpo : player b = .o := player_eq_o_of_ne_x hp
          exact ⟨(minimax_opt_o hWF htf hpo ha).1, trivial⟩
      have hmem : a ∈ actions b := hmem0.1
      have hres : resultD b a = place b a := by
        obtain ⟨r, c⟩ := a
        exact resultD_eq_place (mem_actions.mp hmem).2.2
      have hWF' : WF (place b a) := WF_place hWF a
      have hbal' := (step_WF_balance hWF hbal hmem).2
      have hcE : countMark .e (place b a) = countMark .e b - 1 :=
        countE_place_eq hWF hmem
      have hpos : 0 < countMark .e b := countE_pos_of_not_terminal hWF htf
      have hle' : countMark .e (place b a) ≤ n := by omega
      have hval' : gameValue (place b a) = 0 := by
        by_cases hp : player b = .x
        · have hopt := (minimax_opt_x hWF htf hp ha).2
          have hp' : player (place b a) = .o := by
            rw [player_place hWF hbal hmem, hp, if_pos rfl]
          unfold gameValue
          rw [hp']
          simp only [show (Cell.o = Cell.x) = False by simp, if_false]
          rw [hcE, ← hres]
          rw [hopt]
          unfold gameValue at hval
          rw [hp] at hval
          simpa using hval
        · have hpo : player b = .o := player_eq_o_of_ne_x hp
          have hopt := (minimax_opt_o hWF htf hpo ha).2
          have hp' : player (place b a) = .x := by
            rw [player_place hWF hbal hmem, hpo, if_neg (by decide)]
          unfold gameValue
          rw [hp', if_pos rfl, hcE, ← hres, hopt]
          unfold gameValue at hval
          rw [hpo] at hval
          simpa using hval
      rw [hplay, hres]
      exact ih (place b a) hWF' hbal' hle' hval'

/-- Digit value of a cell in the base-4 board encoding used by the search
certificate checker (`EMPTY, X, O ↦ 0, 1, 2`). -/
def cellVal : Cell → Nat
  | .e => 0
  | .x => 1
  | .o => 2

/-- Base-4 encoding of a board: digit `3*r + c` holds cell `(r, c)`. -/
def encode (b : Board) : Nat :=
  cellVal (getCell b 0 0) + 4 * cellVal (getCell b 0 1) +
  16 * cellVal (getCell b 0 2) + 64 * cellVal (getCell b 1 0) +
  256 * cellVal (getCell b 1 1) + 1024 * cellVal (getCell b 1 2) +
  4096 * cellVal (getCell b 2 0) + 16384 * cellVal (getCell b 2 1) +
  65536 * cellVal (getCell b 2 2)

/-- Digit of `b` at the position whose power of 4 is `k`. -/
def dig (b k : Nat) : Nat := b / k % 4

/-- Line check on encoded boards, mirroring `hasLine` line by line. -/
def winN (b p : Nat) : Bool :=
  ((dig b 1 == p && dig b 4 == p && dig b 16 == p) ||
   (dig b 64 == p && dig b 256 == p && dig b 1024 == p) ||
   (dig b 4096 == p && dig b 16384 == p && dig b 65536 == p)) ||
  ((dig b 1 == p && dig b 64 == p && dig b 4096 == p) ||
   (dig b 4 == p && dig b 256 == p && dig b 16384 == p) ||
   (dig b 16 == p && dig b 1024 == p && dig b 65536 == p)) ||
  (dig b 1 == p && dig b 256 == p && dig b 65536 == p) ||
  (dig b 16 == p && dig b 256 == p && dig b 4096 == p)

/-- The nine cell positions as powers of 4, centre and corners first (the
checker may examine moves in any order). -/
def posL : List Nat := [256, 1, 16, 4096, 65536, 4, 64, 1024, 16384]

/-- Lower-bound certificate checker on encoded boards: verifies that the
mover's minimax value is ≥ 0 by exhibiting one sufficient move at X's
(maximising) turns and checking every legal move at O's turns.  The mark
placed is determined by `isMax`, and the fuel equals the number of empty
cells along real call chains. -/
def chkGE0 : Nat → Bool → Nat → Bool
  | 0, _, b => !winN b 2
  | n + 1, isMax, b =>
    if winN b 1 || winN b 2 then !winN b 2
    else if isMax then posL.any fun k => dig b k == 0 && chkGE0 n false (b + k)
    else posL.all fun k => !(dig b k == 0) || chkGE0 n true (b + 2 * k)

/-- Upper-bound certificate checker, dual to `chkGE0`: verifies that the
mover's minimax value is ≤ 0. -/
def chkLE0 : Nat → Bool → Nat → Bool
  | 0, _, b => winN b 2 || !winN b 1
  | n + 1, isMax, b =>
    if winN b 1 || winN b 2 then winN b 2 || !winN b 1
    else if isMax then posL.all fun k => !(dig b k == 0) || chkLE0 n false (b + k)
    else posL.any fun k => dig b k == 0 && chkLE0 n true (b + 2 * k)

theorem cellVal_lt (a : Cell) : cellVal a < 4 := by
  cases a <;> decide

theorem cellVal_eq_zero {a : Cell} : cellVal a = 0 ↔ a = .e := by
  cases a <;> simp [cellVal]

theorem cellVal_inj {a p : Cell} (hp : p ≠ .e) :
    (cellVal a = cellVal p) = (a = p) := by
  cases a <;> cases p <;> simp_all [cellVal]

theorem dig_encode {b : Board} (hWF : WF b) :
    dig (encode b) 1 = cellVal (getCell b 0 0) ∧
    dig (encode b) 4 = cellVal (getCell b 0 1) ∧
    dig (encode b) 16 = cellVal (getCell b 0 2) ∧
    dig (encode b) 64 = cellVal (getCell b 1 0) ∧
    dig (encode b) 256 = cellVal (getCell b 1 1) ∧
    dig (encode b) 1024 = cellVal (getCell b 1 2) ∧
    dig (encode b) 4096 = cellVal (getCell b 2 0) ∧
    dig (encode b) 16384 = cellVal (getCell b 2 1) ∧
    dig (encode b) 65536 = cellVal (getCell b 2 2) := by
  obtain ⟨a₀, a₁, a₂, a₃, a₄, a₅, a₆, a₇, a₈, rfl⟩ := hWF
  have h0 := cellVal_lt a₀
  have h1 := cellVal_lt a₁
  have h2 := cellVal_lt a₂
  have h3 := cellVal_lt a₃
  have h4 := cellVal_lt a₄
  have h5 := cellVal_lt a₅
  have h6 := cellVal_lt a₆
  have h7 := cellVal_lt a₇
  have h8 := cellVal_lt a₈
  simp only [encode, dig, getCell_x00, getCell_x01, getCell_x02, getCell_x10,
    getCell_x11, getCell_x12, getCell_x20, getCell_x21, getCell_x22]
  refine ⟨?_, ?_, ?_, ?_, ?_, ?_, ?_, ?_, ?_⟩ <;> omega

theorem dig_encode_rc {b : Board} (hWF : WF b) {r c : Nat}
    (hr : r < 3) (hc : c < 3) :
    dig (encode b) (4 ^ (3 * r + c)) = cellVal (getCell b r c) := by
  obtain ⟨h1, h2, h3, h4, h5, h6, h7, h8, h9⟩ := dig_encode hWF
  interval_cases r <;> interval_cases c
  · exact h1
  · exact h2
  · exact h3
  · exact h4
  · exact h5
  · exact h6
  · exact h7
  · exact h8
  · exact h9

theorem cellVal_beq (a p : Cell) :
    (cellVal a == cellVal p) = (a == p) := by
  cases a <;> cases p <;> rfl

theorem winN_encode {b : Board} (hWF : WF b) (p : Cell) :
    winN (encode b) (cellVal p) = hasLine b p := by
  obtain ⟨a₀, a₁, a₂, a₃, a₄, a₅, a₆, a₇, a₈, rfl⟩ := hWF
  obtain ⟨h1, h2, h3, h4, h5, h6, h7, h8, h9⟩ :=
    dig_encode ⟨a₀, a₁, a₂, a₃, a₄, a₅, a₆, a₇, a₈, rfl⟩
  simp only [winN, h1, h2, h3, h4, h5, h6, h7, h8, h9, getCell_x00,
    getCell_x01, getCell_x02, getCell_x10, getCell_x11, getCell_x12,
    getCell_x20, getCell_x21, getCell_x22, cellVal_beq, hasLine,
    List.range_succ, List.range_zero, List.any_append, List.any_cons,
    List.any_nil, List.nil_append, Bool.or_assoc, Bool.or_false,
    Bool.false_or, Bool.and_assoc]

theorem posL_any_iff (f : Nat → Bool) :
    posL.any f = true ↔
      ∃ r c : Nat, r < 3 ∧ c < 3 ∧ f (4 ^ (3 * r + c)) = true := by
  simp only [posL, List.any_cons, List.any_nil, Bool.or_eq_true,
    Bool.false_eq_true, or_false]
  constructor
  · rintro (h | h | h | h | h | h | h | h | h)
    · exact ⟨1, 1, by omega, by omega, h⟩
    · exact ⟨0, 0, by omega, by omega, h⟩
    · exact ⟨0, 2, by omega, by omega, h⟩
    · exact ⟨2, 0, by omega, by omega, h⟩
    · exact ⟨2, 2, by omega, by omega, h⟩
    · exact ⟨0, 1, by omega, by omega, h⟩
    · exact ⟨1, 0, by omega, by omega, h⟩
    · exact ⟨1, 2, by omega, by omega, h⟩
    · exact ⟨2, 1, by omega, by omega, h⟩
  · rintro ⟨r, c, hr, hc, h⟩
    interval_cases r <;> interval_cases c <;> revert h <;> norm_num <;> tauto

theorem posL_all_iff (f : Nat → Bool) :
    posL.all f = true ↔
      ∀ r c : Nat, r < 3 → c < 3 → f (4 ^ (3 * r + c)) = true := by
  simp only [posL, List.all_cons, List.all_nil, Bool.and_eq_true, and_true]
  constructor
  · rintro ⟨g1, g2, g3, g4, g5, g6, g7, g8, g9⟩ r c hr hc
    interval_cases r <;> interval_cases c <;> norm_num <;> assumption
  · intro h
    exact ⟨h 1 1 (by omega) (by omega), h 0 0 (by omega) (by omega),
      h 0 2 (by omega) (by omega), h 2 0 (by omega) (by omega),
      h 2 2 (by omega) (by omega), h 0 1 (by omega) (by omega),
      h 1 0 (by omega) (by omega), h 1 2 (by omega) (by omega),
      h 2 1 (by omega) (by omega)⟩

theorem encode_place {b : Board} (hWF : WF b) {r c : Nat} (hr : r < 3)
    (hc : c < 3) (he : getCell b r c = .e) :
    encode (place b (r, c)) =
      encode b + cellVal (player b) * 4 ^ (3 * r + c) := by
  obtain ⟨a₀, a₁, a₂, a₃, a₄, a₅, a₆, a₇, a₈, rfl⟩ := hWF
  interval_cases r <;> interval_cases c <;>
    simp only [getCell_x00, getCell_x01, getCell_x02, getCell_x10, getCell_x11,
      getCell_x12, getCell_x20, getCell_x21, getCell_x22] at he <;>
    subst he <;>
    simp only [place_x00, place_x01, place_x02, place_x10, place_x11,
      place_x12, place_x20, place_x21, place_x22, encode, getCell_x00,
      getCell_x01, getCell_x02, getCell_x10, getCell_x11, getCell_x12,
      getCell_x20, getCell_x21, getCell_x22] <;>
    norm_num [cellVal] <;> ring

theorem winner_isSome_eq (b : Board) :
    (winner b).isSome = (hasLine b .o || hasLine b .x) := by
  unfold winner
  by_cases ho : hasLine b .o <;> by_cases hx : hasLine b .x <;>
    simp [ho, hx]

theorem utility_nonneg_iff {b : Board} :
    0 ≤ utility b ↔ hasLine b .o = false := by
  unfold utility winner
  by_cases ho : hasLine b .o <;> by_cases hx : hasLine b .x <;>
    simp [ho, hx]

theorem utility_nonpos_iff {b : Board} :
    utility b ≤ 0 ↔ (hasLine b .o || !hasLine b .x) = true := by
  unfold utility winner
  by_cases ho : hasLine b .o <;> by_cases hx : hasLine b .x <;>
    simp [ho, hx]

theorem utility_zero_of_no_lines {b : Board} (ho : hasLine b .o = false)
    (hx : hasLine b .x = false) : utility b = 0 := by
  unfold utility winner
  simp [ho, hx]

theorem countE_zero_of_full {b : Board} (hWF : WF b)
    (h : boardFull b = true) : countMark .e b = 0 := by
  obtain ⟨a₀, a₁, a₂, a₃, a₄, a₅, a₆, a₇, a₈, rfl⟩ := hWF
  simp only [boardFull, List.all_eq_true, List.mem_range] at h
  have g0 : ¬(a₀ = Cell.e) := by simpa [getCell_x00] using h 0 (by omega) 0 (by omega)
  have g1 : ¬(a₁ = Cell.e) := by simpa [getCell_x01] using h 0 (by omega) 1 (by omega)
  have g2 : ¬(a₂ = Cell.e) := by simpa [getCell_x02] using h 0 (by omega) 2 (by omega)
  have g3 : ¬(a₃ = Cell.e) := by simpa [getCell_x10] using h 1 (by omega) 0 (by omega)
  have g4 : ¬(a₄ = Cell.e) := by simpa [getCell_x11] using h 1 (by omega) 1 (by omega)
  have g5 : ¬(a₅ = Cell.e) := by simpa [getCell_x12] using h 1 (by omega) 2 (by omega)
  have g6 : ¬(a₆ = Cell.e) := by simpa [getCell_x20] using h 2 (by omega) 0 (by omega)
  have g7 : ¬(a₇ = Cell.e) := by simpa [getCell_x21] using h 2 (by omega) 1 (by omega)
  have g8 : ¬(a₈ = Cell.e) := by simpa [getCell_x22] using h 2 (by omega) 2 (by omega)
  rw [countMark_explode]
  simp [g0, g1, g2, g3, g4, g5, g6, g7, g8]

theorem boardFull_eq_false_of_countE_pos {b : Board} (hWF : WF b)
    (h : 0 < countMark .e b) : boardFull b = false := by
  cases hb : boardFull b
  · rfl
  · have := countE_zero_of_full hWF hb
    omega

/-- Soundness of the lower-bound certificate checker: a successful run on
the encoding of a well-formed, balanced board whose mover matches the
`isMax` flag establishes that the mover's minimax value is ≥ 0. -/
theorem chkGE0_sound : ∀ n : Nat,
    (∀ b : Board, WF b →
      (countMark .x b = countMark .o b ∨
        countMark .x b = countMark .o b + 1) →
      player b = .x → chkGE0 n true (encode b) = true →
      0 ≤ maxValueF n b) ∧
    (∀ b : Board, WF b →
      (countMark .x b = countMark .o b ∨
        countMark .x b = countMark .o b + 1) →
      player b = .o → chkGE0 n false (encode b) = true →
      0 ≤ minValueF n b) := by
  intro n
  induction n with
  | zero =>
    constructor
    · intro b hWF hbal hp h
      simp only [chkGE0] at h
      have h2 : winN (encode b) 2 = false := by simpa using h
      rw [show (2 : Nat) = cellVal .o from rfl, winN_encode hWF] at h2
      simpa [maxValueF] using utility_nonneg_iff.mpr h2
    · intro b hWF hbal hp h
      simp only [chkGE0] at h
      have h2 : winN (encode b) 2 = false := by simpa using h
      rw [show (2 : Nat) = cellVal .o from rfl, winN_encode hWF] at h2
      simpa [minValueF] using utility_nonneg_iff.mpr h2
  | succ n ih =>
    have hwx : ∀ b : Board, WF b → winN (encode b) 1 = hasLine b .x := by
      intro b hWF
      rw [show (1 : Nat) = cellVal .x from rfl, winN_encode hWF]
    have hwo : ∀ b : Board, WF b → winN (encode b) 2 = hasLine b .o := by
      intro b hWF
      rw [show (2 : Nat) = cellVal .o from rfl, winN_encode hWF]
    constructor
    · intro b hWF hbal hp h
      simp only [chkGE0, if_true] at h
      by_cases hw : (winN (encode b) 1 || winN (encode b) 2) = true
      · rw [if_pos hw] at h
        have h2 : hasLine b .o = false := by
          have := (by simpa using h : winN (encode b) 2 = false)
          rwa [hwo b hWF] at this
        rw [hwx b hWF, hwo b hWF] at hw
        have ht : terminal b = true := by
          rcases Bool.or_eq_true_iff.mp hw with h1 | h1 <;>
            simp [terminal, winner_isSome_eq, h1]
        rw [maxValueF_terminal ht]
        exact utility_nonneg_iff.mpr h2
      · rw [if_neg hw] at h
        simp only [Bool.or_eq_true, not_or, Bool.not_eq_true] at hw
        obtain ⟨hw1, hw2⟩ := hw
        rw [hwx b hWF] at hw1
        rw [hwo b hWF] at hw2
        obtain ⟨r, c, hr, hc, hrc⟩ := (posL_any_iff _).mp h
        rw [Bool.and_eq_true] at hrc
        have hd : dig (encode b) (4 ^ (3 * r + c)) = 0 := by
          simpa using hrc.1
        rw [dig_encode_rc hWF hr hc] at hd
        have he : getCell b r c = .e := cellVal_eq_zero.mp hd
        have hpos : 0 < countMark .e b := countE_pos hWF hr hc he
        have htf : terminal b = false := by
          simp [terminal, winner_isSome_eq, hw1, hw2,
            boardFull_eq_false_of_countE_pos hWF hpos]
        have hmem : ((r, c) : Action) ∈ actions b :=
          mem_actions.mpr ⟨hr, hc, he⟩
        have henc : encode (place b (r, c)) = encode b + 4 ^ (3 * r + c) := by
          rw [encode_place hWF hr hc he, hp]
          norm_num [cellVal]
        have hchild : chkGE0 n false (encode (place b (r, c))) = true := by
          rw [henc]
          exact hrc.2
        have hWF' := WF_place hWF ((r, c) : Action)
        have hbal' := (step_WF_balance hWF hbal hmem).2
        have hp' : player (place b (r, c)) = .o := by
          rw [player_place hWF hbal hmem, hp, if_pos rfl]
        have hv := ih.2 (place b (r, c)) hWF' hbal' hp' hchild
        have hres : resultD b (r, c) = place b (r, c) := resultD_eq_place he
        calc (0 : Int) ≤ minValueF n (resultD b (r, c)) := by
              rw [hres]
              exact hv
          _ ≤ maxValueF (n + 1) b := by
              simp only [maxValueF, htf, Bool.false_eq_true, if_false]
              exact le_foldlMax _ (actions b) (-2) (r, c) hmem
    · intro b hWF hbal hp h
      simp only [chkGE0, Bool.false_eq_true, if_false] at h
      by_cases hw : (winN (encode b) 1 || winN (encode b) 2) = true
      · rw [if_pos hw] at h
        have h2 : hasLine b .o = false := by
          have := (by simpa using h : winN (encode b) 2 = false)
          rwa [hwo b hWF] at this
        rw [hwx b hWF, hwo b hWF] at hw
        have ht : terminal b = true := by
          rcases Bool.or_eq_true_iff.mp hw with h1 | h1 <;>
            simp [terminal, winner_isSome_eq, h1]
        rw [minValueF_terminal ht]
        exact utility_nonneg_iff.mpr h2
      · rw [if_neg hw] at h
        simp only [Bool.or_eq_true, not_or, Bool.not_eq_true] at hw
        obtain ⟨hw1, hw2⟩ := hw
        rw [hwx b hWF] at hw1
        rw [hwo b hWF] at hw2
        by_cases hfull : countMark .e b = 0
        · have ht : terminal b = true := by
            simp [terminal, full_of_countE_zero hWF hfull]
          rw [minValueF_terminal ht, utility_zero_of_no_lines hw2 hw1]
        · have htf : terminal b = false := by
            simp [terminal, winner_isSome_eq, hw1, hw2,
              boardFull_eq_false_of_countE_pos hWF (by omega)]
          simp only [minValueF, htf, Bool.false_eq_true, if_false]
          apply foldlMin_ge _ (actions b) 2 (by omega)
          intro x hx
          obtain ⟨r, c⟩ := x
          have hm3 := mem_actions.mp hx
          have hr : r < 3 := hm3.1
          have hc : c < 3 := hm3.2.1
          have he : getCell b r c = .e := hm3.2.2
          have hall := (posL_all_iff _).mp h r c hr hc
          have hd : dig (encode b) (4 ^ (3 * r + c)) = 0 := by
            rw [dig_encode_rc hWF hr hc]
            exact cellVal_eq_zero.mpr he
          have hchild : chkGE0 n true (encode b + 2 * 4 ^ (3 * r + c)) = true := by
            simpa [hd] using hall
          have henc : encode (place b (r, c)) =
              encode b + 2 * 4 ^ (3 * r + c) := by
            rw [encode_place hWF hr hc he, hp]
            norm_num [cellVal]
          rw [← henc] at hchild
          have hWF' := WF_place hWF ((r, c) : Action)
          have hbal' := (step_WF_balance hWF hbal hx).2
          have hp' : player (place b (r, c)) = .x := by
            rw [player_place hWF hbal hx, hp, if_neg (by decide)]
          have hv := ih.1 (place b (r, c)) hWF' hbal' hp' hchild
          have hres : resultD b (r, c) = place b (r, c) := resultD_eq_place he
          rw [hres]
          exact hv

/-- Soundness of the upper-bound certificate checker, dual to
`chkGE0_sound`: a successful run establishes that the mover's minimax
value is ≤ 0. -/
theorem chkLE0_sound : ∀ n : Nat,
    (∀ b : Board, WF b →
      (countMark .x b = countMark .o b ∨
        countMark .x b = countMark .o b + 1) →
      player b = .x → chkLE0 n true (encode b) = true →
      maxValueF n b ≤ 0) ∧
    (∀ b : Board, WF b →
      (countMark .x b = countMark .o b ∨
        countMark .x b = countMark .o b + 1) →
      player b = .o → chkLE0 n false (encode b) = true →
      minValueF n b ≤ 0) := by
  intro n
  induction n with
  | zero =>
    constructor
    · intro b hWF hbal hp h
      simp only [chkLE0] at h
      rw [show (2 : Nat) = cellVal .o from rfl, winN_encode hWF,
        show (1 : Nat) = cellVal .x from rfl, winN_encode hWF] at h
      simpa [maxValueF] using utility_nonpos_iff.mpr h
    · intro b hWF hbal hp h
      simp only [chkLE0] at h
      rw [show (2 : Nat) = cellVal .o from rfl, winN_encode hWF,
        show (1 : Nat) = cellVal .x from rfl, winN_encode hWF] at h
      simpa [minValueF] using utility_nonpos_iff.mpr h
  | succ n ih =>
    have hwx : ∀ b : Board, WF b → winN (encode b) 1 = hasLine b .x := by
      intro b hWF
      rw [show (1 : Nat) = cellVal .x from rfl, winN_encode hWF]
    have hwo : ∀ b : Board, WF b → winN (encode b) 2 = hasLine b .o := by
      intro b hWF
      rw [show (2 : Nat) = cellVal .o from rfl, winN_encode hWF]
    constructor
    · intro b hWF hbal hp h
      simp only [chkLE0, if_true] at h
      by_cases hw : (winN (encode b) 1 || winN (encode b) 2) = true
      · rw [if_pos hw] at h
        rw [hwx b hWF, hwo b hWF] at h hw
        have ht : terminal b = true := by
          rcases Bool.or_eq_true_iff.mp hw with h1 | h1 <;>
            simp [terminal, winner_isSome_eq, h1]
        rw [maxValueF_terminal ht]
        exact utility_nonpos_iff.mpr h
      · rw [if_neg hw] at h
        simp only [Bool.or_eq_true, not_or, Bool.not_eq_true] at hw
        obtain ⟨hw1, hw2⟩ := hw
        rw [hwx b hWF] at hw1
        rw [hwo b hWF] at hw2
        by_cases hfull : countMark .e b = 0
        · have ht : terminal b = true := by
            simp [terminal, full_of_countE_zero hWF hfull]
          rw [maxValueF_terminal ht, utility_zero_of_no_lines hw2 hw1]
        · have htf : terminal b = false := by
            simp [terminal, winner_isSome_eq, hw1, hw2,
              boardFull_eq_false_of_countE_pos hWF (by omega)]
          simp only [maxValueF, htf, Bool.false_eq_true, if_false]
          apply foldlMax_le _ (actions b) (-2) (by omega)
          intro x hx
          obtain ⟨r, c⟩ := x
          have hm3 := mem_actions.mp hx
          have hr : r < 3 := hm3.1
          have hc : c < 3 := hm3.2.1
          have he : getCell b r c = .e := hm3.2.2
          have hall := (posL_all_iff _).mp h r c hr hc
          have hd : dig (encode b) (4 ^ (3 * r + c)) = 0 := by
            rw [dig_encode_rc hWF hr hc]
            exact cellVal_eq_zero.mpr he
          have hchild : chkLE0 n false (encode b + 4 ^ (3 * r + c)) = true := by
            simpa [hd] using hall
          have henc : encode (place b (r, c)) =
              encode b + 4 ^ (3 * r + c) := by
            rw [encode_place hWF hr hc he, hp]
            norm_num [cellVal]
          rw [← henc] at hchild
          have hWF' := WF_place hWF ((r, c) : Action)
          have hbal' := (step_WF_balance hWF hbal hx).2
          have hp' : player (place b (r, c)) = .o := by
            rw [player_place hWF hbal hx, hp, if_pos rfl]
          have hv := ih.2 (place b (r, c)) hWF' hbal' hp' hchild
          have hres : resultD b (r, c) = place b (r, c) := resultD_eq_place he
          rw [hres]
          exact hv
    · intro b hWF hbal hp h
      simp only [chkLE0, Bool.false_eq_true, if_false] at h
      by_cases hw : (winN (encode b) 1 || winN (encode b) 2) = true
      · rw [if_pos hw] at h
        rw [hwx b hWF, hwo b hWF] at h hw
        have ht : terminal b = true := by
          rcases Bool.or_eq_true_iff.mp hw with h1 | h1 <;>
            simp [terminal, winner_isSome_eq, h1]
        rw [minValueF_terminal ht]
        exact utility_nonpos_iff.mpr h
      · rw [if_neg hw] at h
        simp only [Bool.or_eq_true, not_or, Bool.not_eq_true] at hw
        obtain ⟨hw1, hw2⟩ := hw
        rw [hwx b hWF] at hw1
        rw [hwo b hWF] at hw2
        obtain ⟨r, c, hr, hc, hrc⟩ := (posL_any_iff _).mp h
        rw [Bool.and_eq_true] at hrc
        have hd : dig (encode b) (4 ^ (3 * r + c)) = 0 := by
          simpa using hrc.1
        rw [dig_encode_rc hWF hr hc] at hd
        have he : getCell b r c = .e := cellVal_eq_zero.mp hd
        have hpos : 0 < countMark .e b := countE_pos hWF hr hc he
        have htf : terminal b = false := by
          simp [terminal, winner_isSome_eq, hw1, hw2,
            boardFull_eq_false_of_countE_pos hWF hpos]
        have hmem : ((r, c) : Action) ∈ actions b :=
          mem_actions.mpr ⟨hr, hc, he⟩
        have henc : encode (place b (r, c)) =
            encode b + 2 * 4 ^ (3 * r + c) := by
          rw [encode_place hWF hr hc he, hp]
          norm_num [cellVal]
        have hchild : chkLE0 n true (encode (place b (r, c))) = true := by
          rw [henc]
          exact hrc.2
        have hWF' := WF_place hWF ((r, c) : Action)
        have hbal' := (step_WF_balance hWF hbal hmem).2
        have hp' : player (place b (r, c)) = .x := by
          rw [player_place hWF hbal hmem, hp, if_neg (by decide)]
        have hv := ih.1 (place b (r, c)) hWF' hbal' hp' hchild
        have hres : resultD b (r, c) = place b (r, c) := resultD_eq_place he
        calc minValueF (n + 1) b ≤ maxValueF n (resultD b (r, c)) := by
              simp only [minValueF, htf, Bool.false_eq_true, if_false]
              exact foldlMin_le _ (actions b) 2 (r, c) hmem
          _ ≤ 0 := by
              rw [hres]
              exact hv

/-- The minimax value of the empty board is a draw. -/
theorem maxValueF_initial : maxValueF 9 initial_state = 0 := by
  have h1 : 0 ≤ maxValueF 9 initial_state :=
    (chkGE0_sound 9).1 initial_state WF_initial (Or.inl rfl)
      (by decide) (by decide)
  have h2 : maxValueF 9 initial_state ≤ 0 :=
    (chkLE0_sound 9).1 initial_state WF_initial (Or.inl rfl)
      (by decide) (by decide)
  omega

theorem gameValue_initial : gameValue initial_state = 0 := by
  have hp : player initial_state = .x := by decide
  have hc : countMark .e initial_state = 9 := by decide
  unfold gameValue
  rw [hp, if_pos rfl, hc, maxValueF_initial]

/-- C1: when both sides repeatedly apply the action returned by `minimax`
starting from `initial_state()`, the game reaches a terminal board with
winner `None` and utility 0 — optimal self-play always ends in a draw. -/
theorem optimal_selfplay_draws :
    terminal (play 9 initial_state) = true ∧
    winner (play 9 initial_state) = none ∧
    utility (play 9 initial_state) = 0 := by
  have h := play_inv 9 initial_state WF_initial (Or.inl rfl)
    (by decide) gameValue_initial
  refine ⟨h.1, ?_, h.2⟩
  have hu := h.2
  unfold utility at hu
  rcases hw : winner (play 9 initial_state) with _ | c
  · rfl
  · rw [hw] at hu
    exfalso
    cases c
    · unfold winner at hw
      split_ifs at hw <;> simp_all
    · simp at hu
    · simp at hu

end TicTacToe

namespace Heredity

/-- `PROBS["gene"]`: unconditional prior over gene counts, as exact
rationals (`0.96, 0.03, 0.01`).  Gene counts other than 0, 1, 2 never
occur. -/
def PROBS_gene : Nat → ℚ
  | 0 => 96 / 100
  | 1 => 3 / 100
  | 2 => 1 / 100
  | _ => 0

/-- `PROBS["trait"]`: likelihood of the trait given the gene count. -/
def PROBS_trait (n : Nat) (t : Bool) : ℚ :=
  match n, t with
  | 2, true => 65 / 100
  | 2, false => 35 / 100
  | 1, true => 56 / 100
  | 1, false => 44 / 100
  | 0, true => 1 / 100
  | 0, false => 99 / 100
  | _, _ => 0

/-- `PROBS["mutation"] = 0.01`. -/
def PROBS_mutation : ℚ := 1 / 100

/-- One person record, as stored by `load_data`. -/
structure Person where
  name : String
  mother : Option String
  father : Option String
  trait : Option Bool
deriving DecidableEq, Repr

/-- A population: the insertion-ordered dictionary built by `load_data`. -/
abbrev Population := List (String × Person)

/-- One CSV row with fields `name, mother, father, trait`. -/
structure Row where
  name : String
  mother : String
  father : String
  trait : String
deriving DecidableEq, Repr

/-- `row["mother"] or None`: an empty field becomes `None`. -/
def orNone (s : String) : Option String := if s = "" then none else some s

/-- Python dict assignment `data[name] = ...`: overwrite an existing key,
otherwise append at the end. -/
def dictInsert (d : Population) (k : String) (v : Person) : Population :=
  if (d.map Prod.fst).contains k then
    d.map fun p => if p.1 = k then (k, v) else p
  else d ++ [(k, v)]

/-- The per-row body of `load_data`'s loop. -/
def loadRow (d : Population) (row : Row) : Population :=
  dictInsert d row.name
    { name := row.name
      mother := orNone row.mother
      father := orNone row.father
      trait := if row.trait = "1" then some true
               else if row.trait = "0" then some false else none }

/-- `load_data(filename)`, with the file contents given as parsed rows:
every row is stored into the dictionary; the function performs no
validation of the `mother`/`father` references. -/
def load_data (rows : List Row) : Population :=
  rows.foldl loadRow []

theorem mem_keys_dictInsert_self (d : Population) (k : String) (v : Person) :
    k ∈ (dictInsert d k v).map Prod.fst := by
  unfold dictInsert
  split
  · rename_i h
    rw [List.contains_iff_exists_mem_beq] at h
    obtain ⟨k', hk', hbeq⟩ := h
    rw [List.mem_map] at hk'
    obtain ⟨p, hp, rfl⟩ := hk'
    rw [beq_iff_eq] at hbeq
    rw [List.map_map, List.mem_map]
    refine ⟨p, hp, ?_⟩
    simp [hbeq.symm]
  · simp

theorem mem_keys_dictInsert_of (d : Population) (k' : String) (v : Person)
    {k : String} (h : k ∈ d.map Prod.fst) :
    k ∈ (dictInsert d k' v).map Prod.fst := by
  unfold dictInsert
  rw [List.mem_map] at h
  obtain ⟨p, hp, rfl⟩ := h
  split
  · rw [List.map_map, List.mem_map]
    refine ⟨p, hp, ?_⟩
    by_cases hpk : p.1 = k'
    · simp [hpk]
    · simp [hpk]
  · rw [List.mem_map]
    exact ⟨p, List.mem_append_left _ hp, rfl⟩

theorem load_data_aux : ∀ (rows : List Row) (acc : Population),
    (∀ k, k ∈ acc.map Prod.fst →
      k ∈ (rows.foldl loadRow acc).map Prod.fst) ∧
    (∀ r ∈ rows, r.name ∈ (rows.foldl loadRow acc).map Prod.fst) := by
  intro rows
  induction rows with
  | nil => exact fun acc => ⟨fun k h => h, by simp⟩
  | cons r rest ih =>
    intro acc
    constructor
    · intro k h
      exact (ih (loadRow acc r)).1 k
        (mem_keys_dictInsert_of _ _ _ h)
    · intro r' hr'
      rcases List.mem_cons.mp hr' with rfl | hr'
      · exact (ih (loadRow acc r')).1 r'.name
          (mem_keys_dictInsert_self _ _ _)
      · exact (ih (loadRow acc r)).2 r' hr'

/-- C4 (amended): `load_data` performs no validation of parent references:
it never fails, and for every input it returns the Population containing
an entry for every row's name (later rows with a repeated name overwrite
earlier ones). -/
theorem load_data_total (rows : List Row) :
    ∀ r ∈ rows, r.name ∈ (load_data rows).map Prod.fst :=
  (load_data_aux rows []).2

/-- Witness for `load_data_total` at a one-row input. -/
theorem load_data_total_witness :
    (Row.mk "a" "" "" "1").name ∈
      (load_data [Row.mk "a" "" "" "1"]).map Prod.fst :=
  load_data_total [Row.mk "a" "" "" "1"] _ (List.mem_singleton.mpr rfl)

/-- C4 counterexample: the claim says an input whose single row names a
non-existent mother (`"ghost"`) and leaves the father unset must make
loading fail; instead `load_data` returns a normal Population containing
that very row, dangling reference and all. -/
theorem load_data_no_validation :
    load_data [Row.mk "child" "ghost" "" "1"] =
      [("child",
        { name := "child", mother := some "ghost", father := none,
          trait := some true })] := by
  rfl


/-- `person_num_of_genes(person, one_gene, two_genes)`. -/
def person_num_of_genes (person : String)
    (one_gene two_genes : List String) : Nat :=
  if person ∈ one_gene then 1
  else if person ∈ two_genes then 2
  else 0

/-- `person_num_of_genes` applied to an optional parent name: in the
source, `None in one_gene` is `False`, so an absent single parent counts
as having 0 genes. -/
def parent_num_of_genes (parent : Option String)
    (one_gene two_genes : List String) : Nat :=
  match parent with
  | none => 0
  | some p => person_num_of_genes p one_gene two_genes

/-- `parent_inherit_process(num_of_genes, is_inherited)`: probability that
a parent with the given gene count does (`true`) / does not (`false`)
transmit the gene.  The Python function falls through (returns `None`) on
other counts, which no call reaches; those are mapped to 0 here. -/
def parent_inherit_process (num_of_genes : Nat) (is_inherited : Bool) : ℚ :=
  if num_of_genes = 0 then
    if is_inherited then PROBS_mutation else 1 - PROBS_mutation
  else if num_of_genes = 1 then 1 / 2
  else if num_of_genes = 2 then
    if is_inherited then 1 - PROBS_mutation else PROBS_mutation
  else 0

/-- `people[person]`, with an (unreachable for dictionary keys) default. -/
def lookupPerson (people : Population) (name : String) : Person :=
  (people.lookup name).getD ⟨"", none, none, none⟩

/-- The per-person factor of `joint_probability`'s loop body. -/
def personFactor (people : Population)
    (one_gene two_genes have_trait : List String) (person : String) : ℚ :=
  let numGenes := person_num_of_genes person one_gene two_genes
  let hasTrait := have_trait.contains person
  let pe := lookupPerson people person
  if pe.mother = none ∧ pe.father = none then
    PROBS_gene numGenes * PROBS_trait numGenes hasTrait
  else
    let gm := parent_num_of_genes pe.mother one_gene two_genes
    let gf := parent_num_of_genes pe.father one_gene two_genes
    let inherit :=
      if numGenes = 0 then
        parent_inherit_process gm false * parent_inherit_process gf false
      else if numGenes = 1 then
        parent_inherit_process gm false * parent_inherit_process gf true +
          parent_inherit_process gm true * parent_inherit_process gf false
      else if numGenes = 2 then
        parent_inherit_process gm true * parent_inherit_process gf true
      else 1
    inherit * PROBS_trait numGenes hasTrait

/-- `joint_probability(people, one_gene, two_genes, have_trait)`: the loop
over `people` iterates the dictionary keys and multiplies the per-person
factors into `probability` (initially 1). -/
def joint_probability (people : Population)
    (one_gene two_genes have_trait : List String) : ℚ :=
  (people.map Prod.fst).foldl
    (fun probability person =>
      probability * personFactor people one_gene two_genes have_trait person)
    1

/-- Transmission probability as the specification words it: 0 copies →
mutation rate, 1 copy → 0.5, 2 copies → 1 − mutation rate. -/
def specTransmit : Nat → ℚ
  | 0 => PROBS_mutation
  | 1 => 1 / 2
  | 2 => 1 - PROBS_mutation
  | _ => 0

/-- The specification's per-person contribution: for a founder,
`Prior(geneCount) × Likelihood(trait | geneCount)`; for a non-founder, the
two-parent transmission probability (count 0: both fail; count 2: both
succeed; count 1: sum of the two exactly-one orderings) times the trait
likelihood. -/
def specContribution (one_gene two_genes have_trait : List String)
    (k : String) (pe : Person) : ℚ :=
  let g : Nat := if k ∈ one_gene then 1 else if k ∈ two_genes then 2 else 0
  let t := have_trait.contains k
  if pe.mother = none ∧ pe.father = none then
    PROBS_gene g * PROBS_trait g t
  else
    let tm := specTransmit (parent_num_of_genes pe.mother one_gene two_genes)
    let tf := specTransmit (parent_num_of_genes pe.father one_gene two_genes)
    (if g = 0 then (1 - tm) * (1 - tf)
     else if g = 1 then tm * (1 - tf) + (1 - tm) * tf
     else tm * tf) * PROBS_trait g t

theorem png_cases (person : String) (one_gene two_genes : List String) :
    person_num_of_genes person one_gene two_genes = 0 ∨
    person_num_of_genes person one_gene two_genes = 1 ∨
    person_num_of_genes person one_gene two_genes = 2 := by
  unfold person_num_of_genes
  split_ifs <;> simp

theorem parent_num_cases (parent : Option String)
    (one_gene two_genes : List String) :
    parent_num_of_genes parent one_gene two_genes = 0 ∨
    parent_num_of_genes parent one_gene two_genes = 1 ∨
    parent_num_of_genes parent one_gene two_genes = 2 := by
  cases parent
  · exact Or.inl rfl
  · exact png_cases _ _ _

theorem pip_true_eq {g : Nat} (hg : g = 0 ∨ g = 1 ∨ g = 2) :
    parent_inherit_process g true = specTransmit g := by
  rcases hg with rfl | rfl | rfl <;> rfl

theorem pip_false_eq {g : Nat} (hg : g = 0 ∨ g = 1 ∨ g = 2) :
    parent_inherit_process g false = 1 - specTransmit g := by
  rcases hg with rfl | rfl | rfl <;>
    simp [parent_inherit_process, specTransmit, PROBS_mutation] <;> norm_num

theorem lookup_eq_of_mem : ∀ {people : Population},
    (people.map Prod.fst).Nodup →
    ∀ {k : String} {pe : Person}, (k, pe) ∈ people →
    lookupPerson people k = pe := by
  intro people
  induction people with
  | nil => intro _ k pe h; cases h
  | cons q rest ih =>
    intro hnodup k pe h
    have hnodup2 : q.1 ∉ rest.map Prod.fst ∧ (rest.map Prod.fst).Nodup := by
      rw [List.map_cons, List.nodup_cons] at hnodup
      exact hnodup
    obtain ⟨hq, hrest⟩ := hnodup2
    rcases List.mem_cons.mp h with rfl | h
    · simp [lookupPerson, List.lookup]
    · have hne : k ≠ q.1 := by
        intro hkq
        exact hq (hkq ▸ (List.mem_map.mpr ⟨(k, pe), h, rfl⟩))
      have hbeq : (k == q.1) = false := beq_eq_false_iff_ne.mpr hne
      have hstep : List.lookup k (q :: rest) = List.lookup k rest := by
        show (match k == q.1 with
          | true => some q.2
          | false => List.lookup k rest) = List.lookup k rest
        rw [hbeq]
      unfold lookupPerson
      rw [hstep]
      exact ih hrest h

theorem foldl_mul_eq_prod {α : Type} (f : α → ℚ) :
    ∀ (l : List α) (acc : ℚ),
      l.foldl (fun a x => a * f x) acc = acc * (l.map f).prod := by
  intro l
  induction l with
  | nil => intro acc; simp
  | cons x rest ih =>
    intro acc
    rw [List.foldl_cons, ih, List.map_cons, List.prod_cons]
    ring

theorem personFactor_eq_spec (people : Population)
    (one_gene two_genes have_trait : List String) {k : String} {pe : Person}
    (hlook : lookupPerson people k = pe) :
    personFactor people one_gene two_genes have_trait k =
      specContribution one_gene two_genes have_trait k pe := by
  unfold personFactor specContribution
  rw [hlook]
  have hgdef : (if k ∈ one_gene then 1 else if k ∈ two_genes then 2 else 0) =
      person_num_of_genes k one_gene two_genes := rfl
  rw [hgdef]
  by_cases hpar : pe.mother = none ∧ pe.father = none
  · simp only [hpar, if_true, and_self, if_pos]
  · simp only [hpar, if_false, if_neg hpar]
    have hm := parent_num_cases pe.mother one_gene two_genes
    have hf := parent_num_cases pe.father one_gene two_genes
    rcases png_cases k one_gene two_genes with hg | hg | hg <;>
      rw [hg] <;>
      simp only [pip_true_eq hm, pip_false_eq hm, pip_true_eq hf,
        pip_false_eq hf] <;>
      split_ifs <;>
      ring

/-- C2: `joint_probability` is the product, over all persons of the
population, of the founder factor `Prior(geneCount) × Likelihood` or the
non-founder two-parent transmission factor times the likelihood, exactly
as the specification words it. -/
theorem joint_probability_spec (people : Population)
    (hnodup : (people.map Prod.fst).Nodup)
    (one_gene two_genes have_trait : List String)
    (hdisj : ∀ s ∈ one_gene, s ∉ two_genes) :
    joint_probability people one_gene two_genes have_trait =
      (people.map fun p =>
        specContribution one_gene two_genes have_trait p.1 p.2).prod := by
  unfold joint_probability
  rw [foldl_mul_eq_prod, one_mul, List.map_map]
  congr 1
  apply List.map_congr_left
  intro p hp
  exact personFactor_eq_spec people one_gene two_genes have_trait
    (lookup_eq_of_mem hnodup (by simpa using hp))

/-- Witness for `joint_probability_spec`: a founder couple and a child. -/
theorem joint_probability_spec_witness :
    joint_probability
      [("m", { name := "m", mother := none, father := none, trait := none }),
       ("f", { name := "f", mother := none, father := none, trait := none }),
       ("c", { name := "c", mother := some "m", father := some "f",
               trait := none })]
      ["m"] ["c"] ["c"] =
      ([("m", { name := "m", mother := none, father := none,
                trait := none : Person }),
        ("f", { name := "f", mother := none, father := none, trait := none }),
        ("c", { name := "c", mother := some "m", father := some "f",
                trait := none })].map fun p =>
        specContribution ["m"] ["c"] ["c"] p.1 p.2).prod := by
  apply joint_probability_spec
  · decide
  · intro s hs
    fin_cases hs
    decide


/-- Per-person accumulator entry: the three gene-count values and the two
trait values of `probabilities[person]`. -/
structure Entry where
  g0 : ℚ
  g1 : ℚ
  g2 : ℚ
  tt : ℚ
  tf : ℚ
deriving DecidableEq, Repr

/-- The accumulator `probabilities`: one entry per person. -/
abbrev Probabilities := List (String × Entry)

/-- The per-person body of `normalize`'s loop: sum the three gene values,
scale by the reciprocal, and likewise for the two trait values. -/
def normEntry (e : Entry) : Entry :=
  let gene_probabilities_sum := e.g0 + e.g1 + e.g2
  let gene_factor := 1 / gene_probabilities_sum
  let trait_probabilities_sum := e.tt + e.tf
  let trait_factor := 1 / trait_probabilities_sum
  { g0 := gene_factor * e.g0
    g1 := gene_factor * e.g1
    g2 := gene_factor * e.g2
    tt := trait_factor * e.tt
    tf := trait_factor * e.tf }

/-- `normalize(probabilities)`: rescale every person's two distributions
in place. -/
def normalize (probabilities : Probabilities) : Probabilities :=
  probabilities.map fun p => (p.1, normEntry p.2)

/-- C9: if every person's gene values have a nonzero sum and trait values
have a nonzero sum, then after `normalize` each person's gene distribution
sums to exactly 1 and trait distribution sums to exactly 1, and every
value equals the original divided by that person's original sum. -/
theorem normalize_spec (probabilities : Probabilities)
    (hg : ∀ p ∈ probabilities, p.2.g0 + p.2.g1 + p.2.g2 ≠ 0)
    (ht : ∀ p ∈ probabilities, p.2.tt + p.2.tf ≠ 0) :
    ∀ p ∈ normalize probabilities, ∃ q ∈ probabilities, p.1 = q.1 ∧
      p.2.g0 + p.2.g1 + p.2.g2 = 1 ∧ p.2.tt + p.2.tf = 1 ∧
      p.2.g0 = q.2.g0 / (q.2.g0 + q.2.g1 + q.2.g2) ∧
      p.2.g1 = q.2.g1 / (q.2.g0 + q.2.g1 + q.2.g2) ∧
      p.2.g2 = q.2.g2 / (q.2.g0 + q.2.g1 + q.2.g2) ∧
      p.2.tt = q.2.tt / (q.2.tt + q.2.tf) ∧
      p.2.tf = q.2.tf / (q.2.tt + q.2.tf) := by
  intro p hp
  obtain ⟨q, hq, rfl⟩ := List.mem_map.mp hp
  refine ⟨q, hq, rfl, ?_, ?_, ?_, ?_, ?_, ?_, ?_⟩
  · show (1 / (q.2.g0 + q.2.g1 + q.2.g2)) * q.2.g0 +
      (1 / (q.2.g0 + q.2.g1 + q.2.g2)) * q.2.g1 +
      (1 / (q.2.g0 + q.2.g1 + q.2.g2)) * q.2.g2 = 1
    field_simp
    exact div_self (hg q hq)
  · show (1 / (q.2.tt + q.2.tf)) * q.2.tt +
      (1 / (q.2.tt + q.2.tf)) * q.2.tf = 1
    field_simp
    exact div_self (ht q hq)
  · show (1 / (q.2.g0 + q.2.g1 + q.2.g2)) * q.2.g0 = q.2.g0 / (q.2.g0 + q.2.g1 + q.2.g2)
    ring
  · show (1 / (q.2.g0 + q.2.g1 + q.2.g2)) * q.2.g1 = q.2.g1 / (q.2.g0 + q.2.g1 + q.2.g2)
    ring
  · show (1 / (q.2.g0 + q.2.g1 + q.2.g2)) * q.2.g2 = q.2.g2 / (q.2.g0 + q.2.g1 + q.2.g2)
    ring
  · show (1 / (q.2.tt + q.2.tf)) * q.2.tt = q.2.tt / (q.2.tt + q.2.tf)
    ring
  · show (1 / (q.2.tt + q.2.tf)) * q.2.tf = q.2.tf / (q.2.tt + q.2.tf)
    ring

/-- Witness for `normalize_spec` at a single-person accumulator. -/
theorem normalize_spec_witness :
    ∃ p, p ∈ normalize [("a", (⟨1, 2, 1, 3, 1⟩ : Entry))] ∧
      p.2.g0 + p.2.g1 + p.2.g2 = 1 ∧ p.2.tt + p.2.tf = 1 := by
  have h := normalize_spec [("a", (⟨1, 2, 1, 3, 1⟩ : Entry))]
    (by
      intro p hp
      rw [List.mem_singleton] at hp
      subst hp
      norm_num)
    (by
      intro p hp
      rw [List.mem_singleton] at hp
      subst hp
      norm_num)
  have hmem : ("a", normEntry (⟨1, 2, 1, 3, 1⟩ : Entry)) ∈
      normalize [("a", (⟨1, 2, 1, 3, 1⟩ : Entry))] := by
    simp [normalize]
  obtain ⟨q, hq, hrest⟩ := h _ hmem
  exact ⟨_, hmem, hrest.2.1, hrest.2.2.1⟩


theorem contains_iff_mem {l : List String} {s : String} :
    l.contains s = true ↔ s ∈ l := List.elem_iff

theorem PROBS_gene_pos {g : Nat} (hg : g = 0 ∨ g = 1 ∨ g = 2) :
    0 < PROBS_gene g := by
  rcases hg with rfl | rfl | rfl <;> norm_num [PROBS_gene]

theorem PROBS_trait_pos {g : Nat} (hg : g = 0 ∨ g = 1 ∨ g = 2) (t : Bool) :
    0 < PROBS_trait g t := by
  rcases hg with rfl | rfl | rfl <;> cases t <;> norm_num [PROBS_trait]

theorem pip_pos {g : Nat} (hg : g = 0 ∨ g = 1 ∨ g = 2) (b : Bool) :
    0 < parent_inherit_process g b := by
  rcases hg with rfl | rfl | rfl <;> cases b <;>
    norm_num [parent_inherit_process, PROBS_mutation]

/-- Every per-person factor of `joint_probability` is strictly positive:
all entries of the fixed tables are positive. -/
theorem personFactor_pos (people : Population) (og tg ht : List String)
    (k : String) : 0 < personFactor people og tg ht k := by
  simp only [personFactor]
  split
  · exact mul_pos (PROBS_gene_pos (png_cases k og tg))
      (PROBS_trait_pos (png_cases k og tg) _)
  · have hm := parent_num_cases (lookupPerson people k).mother og tg
    have hf := parent_num_cases (lookupPerson people k).father og tg
    refine mul_pos ?_ (PROBS_trait_pos (png_cases k og tg) _)
    rcases png_cases k og tg with hg | hg | hg <;> rw [hg] <;> split_ifs <;>
      first
        | contradiction
        | omega
        | exact mul_pos (pip_pos hm false) (pip_pos hf false)
        | exact add_pos (mul_pos (pip_pos hm false) (pip_pos hf true))
            (mul_pos (pip_pos hm true) (pip_pos hf false))
        | exact mul_pos (pip_pos hm true) (pip_pos hf true)
        | exact one_pos

/-- `joint_probability` is strictly positive on every input. -/
theorem joint_probability_pos (people : Population)
    (og tg ht : List String) : 0 < joint_probability people og tg ht := by
  unfold joint_probability
  rw [foldl_mul_eq_prod, one_mul]
  apply List.prod_pos
  intro x hx
  obtain ⟨k, _, rfl⟩ := List.mem_map.mp hx
  exact personFactor_pos people og tg ht k

/-- `powerset(s)`: all subsets of a list of names (the Python version
enumerates `itertools.combinations` by size; the collection of subsets is
the same and only sums over it matter). -/
def powerset : List String → List (List String)
  | [] => [[]]
  | a :: rest => powerset rest ++ (powerset rest).map fun s => a :: s

/-- The `fails_evidence` check of `main`'s loop: some person has an
observed trait that contradicts membership in `have_trait`. -/
def fails_evidence (people : Population) (have_trait : List String) : Bool :=
  people.any fun p =>
    p.2.trait.isSome && !(p.2.trait == some (have_trait.contains p.1))

/-- `update(probabilities, one_gene, two_genes, have_trait, p)`: add the
joint probability `p` to each person's matching gene bucket and trait
bucket. -/
def addEntry (e : Entry) (g : Nat) (t : Bool) (p : ℚ) : Entry :=
  { g0 := if g = 0 then e.g0 + p else e.g0
    g1 := if g = 1 then e.g1 + p else e.g1
    g2 := if g = 2 then e.g2 + p else e.g2
    tt := if t then e.tt + p else e.tt
    tf := if t then e.tf else e.tf + p }

def update (probabilities : Probabilities)
    (one_gene two_genes have_trait : List String) (p : ℚ) : Probabilities :=
  probabilities.map fun q =>
    (q.1, addEntry q.2 (person_num_of_genes q.1 one_gene two_genes)
      (have_trait.contains q.1) p)

/-- All `(have_trait, one_gene, two_genes)` triples enumerated by the
nested loops of `main`, with evidence-violating trait sets skipped. -/
def allAssignments (people : Population) :
    List (List String × List String × List String) :=
  ((powerset (people.map Prod.fst)).filter
      fun ht2 => !fails_evidence people ht2).flatMap
    fun ht2 => (powerset (people.map Prod.fst)).flatMap
      fun og => (powerset ((people.map Prod.fst).filter
          fun n => !og.contains n)).map
        fun tg => (ht2, og, tg)

/-- The zero-initialised accumulator of `main`. -/
def initProbabilities (people : Population) : Probabilities :=
  people.map fun p => (p.1, ⟨0, 0, 0, 0, 0⟩)

/-- The enumeration-and-accumulation phase of `main`. -/
def accumulate (people : Population) : Probabilities :=
  (allAssignments people).foldl
    (fun probs a =>
      update probs a.2.1 a.2.2 a.1
        (joint_probability people a.2.1 a.2.2 a.1))
    (initProbabilities people)

theorem addEntry_gsum {g : Nat} (hg : g = 0 ∨ g = 1 ∨ g = 2)
    (e : Entry) (t : Bool) (p : ℚ) :
    (addEntry e g t p).g0 + (addEntry e g t p).g1 + (addEntry e g t p).g2 =
      e.g0 + e.g1 + e.g2 + p := by
  rcases hg with rfl | rfl | rfl <;> simp [addEntry] <;> ring

theorem addEntry_tsum (e : Entry) (g : Nat) (t : Bool) (p : ℚ) :
    (addEntry e g t p).tt + (addEntry e g t p).tf = e.tt + e.tf + p := by
  cases t <;> simp [addEntry] <;> ring

/-- Each person's gene-bucket sum and trait-bucket sum grow by exactly the
joint probability of every processed assignment. -/
theorem accumulate_sums_aux (people : Population) :
    ∀ (l : List (List String × List String × List String))
      (probs : Probabilities) (q : String × Entry),
      q ∈ l.foldl (fun probs a =>
        update probs a.2.1 a.2.2 a.1
          (joint_probability people a.2.1 a.2.2 a.1)) probs →
      ∃ q0 ∈ probs, q.1 = q0.1 ∧
        q.2.g0 + q.2.g1 + q.2.g2 = q0.2.g0 + q0.2.g1 + q0.2.g2 +
          (l.map fun a => joint_probability people a.2.1 a.2.2 a.1).sum ∧
        q.2.tt + q.2.tf = q0.2.tt + q0.2.tf +
          (l.map fun a => joint_probability people a.2.1 a.2.2 a.1).sum := by
  intro l
  induction l with
  | nil =>
    intro probs q hq
    exact ⟨q, hq, rfl, by simp, by simp⟩
  | cons a rest ih =>
    intro probs q hq
    rw [List.foldl_cons] at hq
    obtain ⟨q1, hq1, hname, hgs, hts⟩ := ih _ q hq
    obtain ⟨q0, hq0, rfl⟩ := List.mem_map.mp hq1
    refine ⟨q0, hq0, hname, ?_, ?_⟩
    · rw [hgs, addEntry_gsum (png_cases _ _ _)]
      simp only [List.map_cons, List.sum_cons]
      ring
    · rw [hts, addEntry_tsum]
      simp only [List.map_cons, List.sum_cons]
      ring

theorem nil_mem_powerset : ∀ l : List String, [] ∈ powerset l := by
  intro l
  induction l with
  | nil => simp [powerset]
  | cons a rest ih =>
    unfold powerset
    exact List.mem_append_left _ ih

theorem filter_mem_powerset (f : String → Bool) :
    ∀ l : List String, l.filter f ∈ powerset l := by
  intro l
  induction l with
  | nil => simp [powerset]
  | cons a rest ih =>
    unfold powerset
    by_cases hfa : f a = true
    · rw [List.filter_cons_of_pos hfa]
      exact List.mem_append_right _ (List.mem_map.mpr ⟨_, ih, rfl⟩)
    · rw [List.filter_cons_of_neg hfa]
      exact List.mem_append_left _ ih

/-- The trait set consisting of exactly the people observed to have the
trait; it never fails the evidence check. -/
def ht0 (people : Population) : List String :=
  (people.map Prod.fst).filter fun n =>
    (lookupPerson people n).trait == some true

theorem ht0_consistent (people : Population)
    (hnodup : (people.map Prod.fst).Nodup) :
    fails_evidence people (ht0 people) = false := by
  rw [fails_evidence, List.any_eq_false]
  intro p hp
  have hlook : lookupPerson people p.1 = p.2 :=
    lookup_eq_of_mem hnodup (by simpa using hp)
  cases htr : p.2.trait with
  | none => simp [htr]
  | some b =>
    have hcont : (ht0 people).contains p.1 = b := by
      cases b
      · rw [Bool.eq_false_iff]
        intro hc
        have := (List.mem_filter.mp (contains_iff_mem.mp hc)).2
        rw [hlook, htr] at this
        simp at this
      · apply contains_iff_mem.mpr
        apply List.mem_filter.mpr
        refine ⟨List.mem_map.mpr ⟨p, hp, rfl⟩, ?_⟩
        rw [hlook, htr]
        rfl
    have hdec : decide (p.1 ∈ ht0 people) = b := by
      cases b
      · simp only [decide_eq_false_iff_not]
        intro hmem
        rw [Bool.eq_false_iff] at hcont
        exact hcont (contains_iff_mem.mpr hmem)
      · simp only [decide_eq_true_eq]
        exact contains_iff_mem.mp hcont
    simp [htr, hcont, hdec]

theorem assignment_mem (people : Population)
    (hnodup : (people.map Prod.fst).Nodup) :
    (ht0 people, ([] : List String), ([] : List String)) ∈
      allAssignments people := by
  unfold allAssignments
  refine List.mem_flatMap.mpr ⟨ht0 people, ?_, ?_⟩
  · rw [List.mem_filter]
    refine ⟨filter_mem_powerset _ _, ?_⟩
    rw [ht0_consistent people hnodup]
    rfl
  · refine List.mem_flatMap.mpr ⟨[], nil_mem_powerset _, ?_⟩
    exact List.mem_map.mpr ⟨[], nil_mem_powerset _, rfl⟩

/-- C10: after the full enumeration loop, every person's accumulated
gene-bucket sum and trait-bucket sum are strictly positive — each equals
the sum of `joint_probability` over all enumerated assignments, every such
term is a product of positive table entries, and at least one
evidence-consistent trait assignment always exists — so the divisions
inside `normalize` never divide by zero. -/
theorem accumulate_pos (people : Population) (hne : people ≠ [])
    (hnodup : (people.map Prod.fst).Nodup) :
    ∀ q ∈ accumulate people,
      0 < q.2.g0 + q.2.g1 + q.2.g2 ∧ 0 < q.2.tt + q.2.tf := by
  intro q hq
  obtain ⟨q0, hq0, hname, hgs, hts⟩ := accumulate_sums_aux people _ _ q hq
  obtain ⟨p0, hp0, rfl⟩ := List.mem_map.mp hq0
  have hsum_pos : 0 < ((allAssignments people).map fun a =>
      joint_probability people a.2.1 a.2.2 a.1).sum := by
    apply List.sum_pos
    · intro x hx
      obtain ⟨a, ha, rfl⟩ := List.mem_map.mp hx
      exact joint_probability_pos people _ _ _
    · rw [ne_eq, List.map_eq_nil_iff]
      intro hcon
      have hm := assignment_mem people hnodup
      rw [hcon] at hm
      cases hm
  constructor
  · rw [hgs]
    simpa using hsum_pos
  · rw [hts]
    simpa using hsum_pos

/-- Witness for `accumulate_pos` at a one-founder population, evaluated at
the single accumulated entry. -/
theorem accumulate_pos_witness :
    ("a", (⟨24/25, 3/100, 1/100, 329/10000, 9671/10000⟩ : Entry)) ∈
      accumulate [("a", ⟨"a", none, none, none⟩)] ∧
    (0 : ℚ) < 24/25 + 3/100 + 1/100 ∧ (0 : ℚ) < 329/10000 + 9671/10000 := by
  have he : accumulate [("a", ⟨"a", none, none, none⟩)] =
      [("a", ⟨24/25, 3/100, 1/100, 329/10000, 9671/10000⟩)] := by
    simp only [accumulate, allAssignments, powerset, fails_evidence, initProbabilities,
      update, addEntry, person_num_of_genes, joint_probability, personFactor, lookupPerson,
      parent_num_of_genes, parent_inherit_process, PROBS_gene, PROBS_trait, PROBS_mutation,
      List.foldl, List.map, List.flatMap, List.filter, List.range, List.append, List.contains,
      List.elem, List.find?]
    norm_num
  have hmem : ("a", (⟨24/25, 3/100, 1/100, 329/10000, 9671/10000⟩ : Entry)) ∈
      accumulate [("a", ⟨"a", none, none, none⟩)] := by
    rw [he]; exact List.mem_singleton_self _
  exact ⟨hmem,
    accumulate_pos [("a", ⟨"a", none, none, none⟩)] (by decide) (by decide) _ hmem⟩

end Heredity

namespace PageRank

/-- A corpus: the dictionary from page name to its list of outbound links
(a Python set of strings, modelled as a duplicate-free list). -/
abbrev Corpus := List (String × List String)

/-- `corpus[page]` (default unreachable for dictionary keys). -/
def linksOf (corpus : Corpus) (page : String) : List String :=
  (corpus.lookup page).getD []

theorem pr_contains_iff_mem {l : List String} {s : String} :
    l.contains s = true ↔ s ∈ l := List.elem_iff

/-- Association-list lookup of a present key under distinct keys. -/
theorem pr_lookup_eq_of_mem {β : Type} : ∀ {l : List (String × β)},
    (l.map Prod.fst).Nodup →
    ∀ {k : String} {v : β}, (k, v) ∈ l → l.lookup k = some v := by
  intro l
  induction l with
  | nil => intro _ k v h; cases h
  | cons q rest ih =>
    intro hnodup k v h
    have hnodup2 : q.1 ∉ rest.map Prod.fst ∧ (rest.map Prod.fst).Nodup := by
      rw [List.map_cons, List.nodup_cons] at hnodup
      exact hnodup
    obtain ⟨hq, hrest⟩ := hnodup2
    rcases List.mem_cons.mp h with rfl | h
    · simp [List.lookup]
    · have hne : k ≠ q.1 := by
        intro hkq
        exact hq (hkq ▸ (List.mem_map.mpr ⟨(k, v), h, rfl⟩))
      have hbeq : (k == q.1) = false := beq_eq_false_iff_ne.mpr hne
      have hstep : List.lookup k (q :: rest) = List.lookup k rest := by
        show (match k == q.1 with
          | true => some q.2
          | false => List.lookup k rest) = List.lookup k rest
        rw [hbeq]
      rw [hstep]
      exact ih hrest h

theorem linksOf_eq_of_mem {corpus : Corpus}
    (hnodup : (corpus.map Prod.fst).Nodup) {p : String × List String}
    (hp : p ∈ corpus) : linksOf corpus p.1 = p.2 := by
  unfold linksOf
  rw [pr_lookup_eq_of_mem hnodup (by simpa using hp)]
  rfl

/-- `transition_model(corpus, page, damping_factor)`: one random-walk
step distribution, as the insertion-ordered dictionary over all pages. -/
def transition_model (corpus : Corpus) (page : String)
    (damping_factor : ℚ) : List (String × ℚ) :=
  let num_of_links_from_page := (linksOf corpus page).length
  let num_of_pages := corpus.length
  if num_of_links_from_page = 0 then
    corpus.map fun p => (p.1, 1 / (num_of_pages : ℚ))
  else
    let unlinked_page_probability :=
      (1 - damping_factor) * (1 / (num_of_pages : ℚ))
    let linked_page_probability :=
      damping_factor * (1 / (num_of_links_from_page : ℚ)) +
        unlinked_page_probability
    corpus.map fun p =>
      if (linksOf corpus page).contains p.1 then
        (p.1, linked_page_probability)
      else (p.1, unlinked_page_probability)

/-- C6: on a non-empty corpus whose links stay inside the corpus, the
transition model is the uniform distribution when `page` has no outbound
links, and otherwise assigns `d/outDegree + (1-d)/pageCount` to linked
pages and `(1-d)/pageCount` to all others; in both cases the values are
nonnegative and sum to exactly 1. -/
theorem transition_model_spec (corpus : Corpus) (page : String)
    (damping_factor : ℚ) (hne : corpus ≠ [])
    (hnodup : (corpus.map Prod.fst).Nodup)
    (hlnodup : (linksOf corpus page).Nodup)
    (hlsub : ∀ l ∈ linksOf corpus page, l ∈ corpus.map Prod.fst)
    (hd0 : 0 ≤ damping_factor) (hd1 : damping_factor ≤ 1) :
    ((linksOf corpus page).length = 0 →
      transition_model corpus page damping_factor =
        corpus.map fun p => (p.1, 1 / (corpus.length : ℚ))) ∧
    ((linksOf corpus page).length ≠ 0 →
      transition_model corpus page damping_factor =
        corpus.map fun p => (p.1,
          if p.1 ∈ linksOf corpus page then
            damping_factor / ((linksOf corpus page).length : ℚ) +
              (1 - damping_factor) / (corpus.length : ℚ)
          else (1 - damping_factor) / (corpus.length : ℚ))) ∧
    (∀ q ∈ transition_model corpus page damping_factor, 0 ≤ q.2) ∧
    ((transition_model corpus page damping_factor).map Prod.snd).sum = 1 := by
  have hn : ((corpus.length : ℚ)) ≠ 0 := by
    have : corpus.length ≠ 0 := fun h => hne (List.length_eq_zero.mp h)
    exact_mod_cast this
  refine ⟨?_, ?_, ?_, ?_⟩
  · intro h0
    simp [transition_model, h0]
  · intro hL
    unfold transition_model
    rw [if_neg hL]
    apply List.map_congr_left
    intro p hp
    by_cases hmem : p.1 ∈ linksOf corpus page
    · rw [if_pos (pr_contains_iff_mem.mpr hmem), if_pos hmem]
      congr 1
      ring
    · rw [if_neg (fun hc => hmem (pr_contains_iff_mem.mp hc)),
        if_neg hmem]
      congr 1
      ring
  · intro q hq
    simp only [transition_model] at hq
    split at hq
    · obtain ⟨p, hp, rfl⟩ := List.mem_map.mp hq
      show (0 : ℚ) ≤ 1 / (corpus.length : ℚ)
      positivity
    · obtain ⟨p, hp, rfl⟩ := List.mem_map.mp hq
      have hL : (0 : ℚ) ≤ 1 / ((linksOf corpus page).length : ℚ) := by
        positivity
      have hU : (0 : ℚ) ≤ (1 - damping_factor) * (1 / (corpus.length : ℚ)) := by
        have : (0 : ℚ) ≤ 1 - damping_factor := by linarith
        positivity
      split
      · show (0 : ℚ) ≤ damping_factor * _ + _
        have := mul_nonneg hd0 hL
        exact add_nonneg this hU
      · exact hU
  · by_cases hL : (linksOf corpus page).length = 0
    · simp only [transition_model, hL, if_true, if_pos rfl, List.map_map]
      have h1 : (Prod.snd ∘ fun p : String × List String =>
          (p.1, 1 / (corpus.length : ℚ))) =
          fun _ => 1 / (corpus.length : ℚ) := rfl
      rw [h1, List.map_const', List.sum_replicate, nsmul_eq_mul]
      field_simp
    · have hLq : (((linksOf corpus page).length : ℚ)) ≠ 0 := by
        exact_mod_cast hL
      simp only [transition_model, hL, if_false, List.map_map]
      have h1 : (Prod.snd ∘ fun p : String × List String =>
          if (linksOf corpus page).contains p.1 then
            (p.1, damping_factor * (1 / ((linksOf corpus page).length : ℚ)) +
              (1 - damping_factor) * (1 / (corpus.length : ℚ)))
          else (p.1, (1 - damping_factor) * (1 / (corpus.length : ℚ)))) =
          fun p : String × List String =>
            if p.1 ∈ linksOf corpus page then
              damping_factor * (1 / ((linksOf corpus page).length : ℚ)) +
                (1 - damping_factor) * (1 / (corpus.length : ℚ))
            else (1 - damping_factor) * (1 / (corpus.length : ℚ)) := by
        funext p
        rw [Function.comp_apply, apply_ite Prod.snd]
        by_cases hmem : p.1 ∈ linksOf corpus page
        · rw [if_pos (pr_contains_iff_mem.mpr hmem), if_pos hmem]
        · rw [if_neg (fun hc => hmem (pr_contains_iff_mem.mp hc)), if_neg hmem]
      rw [h1]
      have h2 : (corpus.map fun p : String × List String =>
          if p.1 ∈ linksOf corpus page then
            damping_factor * (1 / ((linksOf corpus page).length : ℚ)) +
              (1 - damping_factor) * (1 / (corpus.length : ℚ))
          else (1 - damping_factor) * (1 / (corpus.length : ℚ))) =
          (corpus.map Prod.fst).map fun k =>
            if k ∈ linksOf corpus page then
              damping_factor * (1 / ((linksOf corpus page).length : ℚ)) +
                (1 - damping_factor) * (1 / (corpus.length : ℚ))
            else (1 - damping_factor) * (1 / (corpus.length : ℚ)) := by
        rw [List.map_map]
        rfl
      rw [h2, ← List.sum_toFinset _ hnodup, Finset.sum_ite, Finset.sum_const,
        Finset.sum_const]
      have hfilter : (corpus.map Prod.fst).toFinset.filter
          (fun k => k ∈ linksOf corpus page) =
          (linksOf corpus page).toFinset := by
        ext k
        simp only [Finset.mem_filter, List.mem_toFinset]
        exact ⟨fun h => h.2, fun h => ⟨hlsub k h, h⟩⟩
      have hc1 : ((corpus.map Prod.fst).toFinset.filter
          (fun k => k ∈ linksOf corpus page)).card =
          (linksOf corpus page).length := by
        rw [hfilter, List.toFinset_card_of_nodup hlnodup]
      have hcards := Finset.filter_card_add_filter_neg_card_eq_card
        (fun k => k ∈ linksOf corpus page)
        (s := (corpus.map Prod.fst).toFinset)
      have hkeycard : (corpus.map Prod.fst).toFinset.card = corpus.length := by
        rw [List.toFinset_card_of_nodup hnodup, List.length_map]
      have hc2 : (((corpus.map Prod.fst).toFinset.filter
          (fun k => ¬ k ∈ linksOf corpus page)).card : ℚ) =
          (corpus.length : ℚ) - ((linksOf corpus page).length : ℚ) := by
        rw [hc1, hkeycard] at hcards
        have := hcards
        push_cast [← this]
        ring
      rw [nsmul_eq_mul, nsmul_eq_mul, hc1, hc2]
      field_simp
      ring


/-- Witness for `transition_model_spec` at a two-page corpus. -/
theorem transition_model_spec_witness :
    ((transition_model [("a", ["b"]), ("b", [])] "a" (85 / 100)).map
      Prod.snd).sum = 1 :=
  (transition_model_spec [("a", ["b"]), ("b", [])] "a" (85 / 100)
    (by decide) (by decide) (by decide) (by decide)
    (by norm_num) (by norm_num)).2.2.2

/-- `random.choices(items, weights)[0]`, driven by one external random
draw `x`: return the first item whose cumulative weight exceeds `x`
(falling back to the last item). -/
def pickWeighted : List String → List ℚ → ℚ → String
  | [], _, _ => ""
  | [a], _, _ => a
  | a :: _ :: _, [], _ => a
  | a :: b :: rest, w :: ws, x =>
    if x < w then a else pickWeighted (b :: rest) ws (x - w)

/-- The `n - 1` weighted steps of the random walk after the start page. -/
def steps (corpus : Corpus) (damping_factor : ℚ) (draws : Nat → ℚ) :
    Nat → String → List String
  | 0, _ => []
  | k + 1, cur_page =>
    let trans := transition_model corpus cur_page damping_factor
    let next := pickWeighted (trans.map Prod.fst) (trans.map Prod.snd)
      (draws k)
    next :: steps corpus damping_factor draws k next

/-- The full visit sequence of the `n`-sample walk: the uniformly chosen
start page (`random.choice`, modelled by the index draw `i0`), then
`n - 1` weighted draws. -/
def walk (corpus : Corpus) (damping_factor : ℚ) (n : Nat) (i0 : Nat)
    (draws : Nat → ℚ) : List String :=
  let init_page := (corpus.map Prod.fst).getD (i0 % corpus.length) ""
  init_page :: steps corpus damping_factor draws (n - 1) init_page

/-- `result_dict[page] = result_dict.get(page, 0) + v` on the
insertion-ordered dictionary. -/
def bump (d : List (String × ℚ)) (page : String) (v : ℚ) :
    List (String × ℚ) :=
  if (d.map Prod.fst).contains page then
    d.map fun p => if p.1 = page then (p.1, p.2 + v) else p
  else d ++ [(page, v)]

/-- `sample_pagerank(corpus, damping_factor, n)`: visit pages along the
walk, adding `1/n` to the visited page's dictionary entry each time (the
start page's initial assignment `result_dict[init_page] = 1/n` is the
first such addition into the empty dictionary). -/
def sample_pagerank (corpus : Corpus) (damping_factor : ℚ) (n : Nat)
    (i0 : Nat) (draws : Nat → ℚ) : List (String × ℚ) :=
  (walk corpus damping_factor n i0 draws).foldl
    (fun result_dict page => bump result_dict page (1 / (n : ℚ))) []

theorem lookup_map_update {p : String} {v : ℚ} :
    ∀ (res : List (String × ℚ)),
      (res.map fun r => if r.1 = p then (r.1, r.2 + v) else r).lookup p =
        (res.lookup p).map (· + v) := by
  intro res
  induction res with
  | nil => rfl
  | cons q rest ih =>
    by_cases hq : q.1 = p
    · rw [List.map_cons, if_pos hq]
      obtain ⟨q1, q2⟩ := q
      simp only at hq
      subst hq
      simp [List.lookup]
    · rw [List.map_cons, if_neg hq]
      obtain ⟨q1, q2⟩ := q
      simp only at hq
      have hbeq : (p == q1) = false :=
        beq_eq_false_iff_ne.mpr (fun h => hq h.symm)
      simp only [List.lookup, hbeq]
      exact ih

theorem lookup_map_update_ne {p q : String} (hpq : q ≠ p) {v : ℚ} :
    ∀ (res : List (String × ℚ)),
      (res.map fun r => if r.1 = p then (r.1, r.2 + v) else r).lookup q =
        res.lookup q := by
  intro res
  induction res with
  | nil => rfl
  | cons r rest ih =>
    obtain ⟨r1, r2⟩ := r
    by_cases hr : r1 = p
    · subst hr
      rw [List.map_cons, if_pos rfl]
      have hbeq : (q == r1) = false := beq_eq_false_iff_ne.mpr hpq
      simp only [List.lookup, hbeq]
      exact ih
    · rw [List.map_cons, if_neg hr]
      by_cases hqr : q = r1
      · subst hqr
        simp [List.lookup]
      · have hbeq : (q == r1) = false := beq_eq_false_iff_ne.mpr hqr
        simp only [List.lookup, hbeq]
        exact ih

theorem lookup_append_none {q : String} :
    ∀ (res l2 : List (String × ℚ)), res.lookup q = none →
      (res ++ l2).lookup q = l2.lookup q := by
  intro res
  induction res with
  | nil => intro l2 _; rfl
  | cons r rest ih =>
    intro l2 h
    obtain ⟨r1, r2⟩ := r
    by_cases hqr : q = r1
    · subst hqr
      simp [List.lookup] at h
    · have hbeq : (q == r1) = false := beq_eq_false_iff_ne.mpr hqr
      simp only [List.cons_append, List.lookup, hbeq] at h ⊢
      exact ih l2 h

theorem lookup_append_some {q : String} {x : ℚ} :
    ∀ (res l2 : List (String × ℚ)), res.lookup q = some x →
      (res ++ l2).lookup q = some x := by
  intro res
  induction res with
  | nil => intro l2 h; cases h
  | cons r rest ih =>
    intro l2 h
    obtain ⟨r1, r2⟩ := r
    by_cases hqr : q = r1
    · subst hqr
      simp only [List.lookup, beq_self_eq_true] at h ⊢
      exact h
    · have hbeq : (q == r1) = false := beq_eq_false_iff_ne.mpr hqr
      simp only [List.cons_append, List.lookup, hbeq] at h ⊢
      exact ih l2 h

theorem lookup_isSome_iff_contains {q : String} :
    ∀ (res : List (String × ℚ)),
      (res.lookup q).isSome = (res.map Prod.fst).contains q := by
  intro res
  induction res with
  | nil => rfl
  | cons r rest ih =>
    obtain ⟨r1, r2⟩ := r
    by_cases hqr : q = r1
    · subst hqr
      simp [List.lookup]
    · have hbeq : (q == r1) = false := beq_eq_false_iff_ne.mpr hqr
      simp only [List.lookup, hbeq, List.map_cons, List.contains_cons]
      rw [ih]
      simp [hbeq]

theorem lookup_bump_self (res : List (String × ℚ)) (p : String) (v : ℚ) :
    (bump res p v).lookup p = some ((res.lookup p).getD 0 + v) := by
  unfold bump
  by_cases hc : (res.map Prod.fst).contains p = true
  · rw [if_pos hc, lookup_map_update]
    have hsome : (res.lookup p).isSome = true := by
      rw [lookup_isSome_iff_contains]
      exact hc
    obtain ⟨x, hx⟩ := Option.isSome_iff_exists.mp hsome
    rw [hx]
    rfl
  · rw [if_neg hc]
    have hnone : res.lookup p = none := by
      cases hl : res.lookup p with
      | none => rfl
      | some x =>
        exact absurd (lookup_isSome_iff_contains res ▸ (by rw [hl]; rfl)) hc
    rw [lookup_append_none res _ hnone, hnone]
    simp [List.lookup]

theorem lookup_bump_ne (res : List (String × ℚ)) {p q : String}
    (hpq : q ≠ p) (v : ℚ) :
    (bump res p v).lookup q = res.lookup q := by
  unfold bump
  split
  · exact lookup_map_update_ne hpq res
  · cases hl : res.lookup q with
    | some x => exact lookup_append_some res _ hl
    | none =>
      rw [lookup_append_none res _ hl]
      have hbeq : (q == p) = false := beq_eq_false_iff_ne.mpr hpq
      simp [List.lookup, hbeq]

/-- Folding `bump` over a visit list gives each visited page `count · v`
(on top of whatever the accumulator already held) and leaves unvisited
pages absent. -/
theorem fold_bump_lookup (v : ℚ) (page : String) :
    ∀ (l : List String) (res : List (String × ℚ)),
      (l.foldl (fun r p => bump r p v) res).lookup page =
        match res.lookup page with
        | some x => some (x + l.count page * v)
        | none =>
          if page ∈ l then some (l.count page * v) else none := by
  intro l
  induction l with
  | nil =>
    intro res
    cases h : res.lookup page <;> simp [h]
  | cons p rest ih =>
    intro res
    rw [List.foldl_cons, ih (bump res p v)]
    by_cases hpq : page = p
    · subst hpq
      rw [lookup_bump_self]
      cases h : res.lookup page with
      | some x =>
        simp only [Option.getD_some, List.count_cons_self, List.mem_cons]
        congr 1
        push_cast
        ring
      | none =>
        simp only [Option.getD_none, List.count_cons_self, List.mem_cons,
          true_or, if_true, zero_add]
        congr 1
        push_cast
        ring
    · rw [lookup_bump_ne res hpq]
      cases h : res.lookup page with
      | some x =>
        simp [List.count_cons_of_ne hpq]
      | none =>
        simp only [List.count_cons_of_ne hpq, List.mem_cons]
        by_cases hmem : page ∈ rest
        · simp [hmem, hpq]
        · simp [hmem, hpq]

/-- C5 (amended): `sample_pagerank` returns the dictionary that maps each
VISITED page to its visit count divided by `n`; pages of the corpus never
visited by the walk are absent from the returned mapping. -/
theorem sample_pagerank_spec (corpus : Corpus) (damping_factor : ℚ)
    (n : Nat) (hn : 1 ≤ n) (i0 : Nat) (draws : Nat → ℚ) (page : String) :
    (sample_pagerank corpus damping_factor n i0 draws).lookup page =
      if page ∈ walk corpus damping_factor n i0 draws then
        some (((walk corpus damping_factor n i0 draws).count page : ℚ) *
          (1 / (n : ℚ)))
      else none := by
  unfold sample_pagerank
  rw [fold_bump_lookup]
  rfl

/-- Witness for `sample_pagerank_spec`: in a two-page corpus with one
sample, the start page gets frequency 1. -/
theorem sample_pagerank_spec_witness :
    (sample_pagerank [("a", ["b"]), ("b", ["a"])] (85 / 100) 1 0
      (fun _ => 0)).lookup "a" =
      if "a" ∈ walk [("a", ["b"]), ("b", ["a"])] (85 / 100) 1 0 (fun _ => 0)
      then some (((walk [("a", ["b"]), ("b", ["a"])] (85 / 100) 1 0
        (fun _ => 0)).count "a" : ℚ) * (1 / (1 : Nat) : ℚ))
      else none :=
  sample_pagerank_spec [("a", ["b"]), ("b", ["a"])] (85 / 100) 1
    (by omega) 0 (fun _ => 0) "a"

/-- C5 counterexample: the corpus contains page `"b"`, but with one sample
starting at `"a"` the returned mapping has no entry for `"b"` at all — it
does not give every page of the corpus its empirical visit frequency. -/
theorem sample_pagerank_missing_page :
    "b" ∈ ([("a", ["b"]), ("b", ["a"])] : Corpus).map Prod.fst ∧
    (sample_pagerank [("a", ["b"]), ("b", ["a"])] (85 / 100) 1 0
      (fun _ => 0)).lookup "b" = none := by
  constructor
  · decide
  · rfl


/-- One destination's updated rank in `iterate_pagerank`'s inner loop
(pure Jacobi: the Python loop writes `cur_result_dict` while reading only
`pre_result_dict`). -/
def stepPR (corpus : Corpus) (damping_factor : ℚ) (pre : String → ℚ)
    (dest_page : String) : ℚ :=
  (corpus.map fun src =>
    if src.2.contains dest_page then pre src.1 / (src.2.length : ℚ)
    else if src.2.length = 0 then pre src.1 / (corpus.length : ℚ)
    else 0).sum * damping_factor +
    (1 - damping_factor) / (corpus.length : ℚ)

/-- The convergence test (`num_converged == num_of_pages`): every page
moved by less than the margin 0.001. -/
def converged (corpus : Corpus) (pre cur : String → ℚ) : Bool :=
  corpus.all fun p => decide (|cur p.1 - pre p.1| < 1 / 1000)

/-- The `while True` loop of `iterate_pagerank`, with explicit fuel
(`none` = fuel exhausted before convergence).  On convergence the loop
breaks and returns `pre_result_dict` — the previous sweep's ranks. -/
def loopPR (corpus : Corpus) (damping_factor : ℚ) :
    Nat → (String → ℚ) → Option (String → ℚ)
  | 0, _ => none
  | fuel + 1, pre =>
    let cur := stepPR corpus damping_factor pre
    if converged corpus pre cur then some pre
    else loopPR corpus damping_factor fuel cur

/-- `iterate_pagerank(corpus, damping_factor)`: all ranks start at `1/N`
(the ranks dictionary is modelled as a function on page names; only its
values on corpus pages are meaningful). -/
def iterate_pagerank (corpus : Corpus) (damping_factor : ℚ)
    (fuel : Nat) : Option (String → ℚ) :=
  loopPR corpus damping_factor fuel fun _ => 1 / (corpus.length : ℚ)

/-- Entry of the random-surfer transition matrix read off the corpus:
weight of the edge from source page `s` into destination `dest`. -/
def M (corpus : Corpus) (s dest : String) : ℚ :=
  if (linksOf corpus s).contains dest then
    1 / ((linksOf corpus s).length : ℚ)
  else if (linksOf corpus s).length = 0 then 1 / (corpus.length : ℚ)
  else 0

theorem corpus_sum_eq {corpus : Corpus}
    (hnodup : (corpus.map Prod.fst).Nodup)
    (f : String × List String → ℚ) (g : String → ℚ)
    (hfg : ∀ p ∈ corpus, f p = g p.1) :
    (corpus.map f).sum = ∑ k ∈ (corpus.map Prod.fst).toFinset, g k := by
  rw [List.sum_toFinset g hnodup, List.map_map]
  exact congrArg List.sum (List.map_congr_left
    fun p hp => (hfg p hp).symm).symm

theorem stepPR_eq_sum (corpus : Corpus) (damping_factor : ℚ)
    (hnodup : (corpus.map Prod.fst).Nodup) (pre : String → ℚ)
    (dest : String) :
    stepPR corpus damping_factor pre dest =
      (∑ s ∈ (corpus.map Prod.fst).toFinset, pre s * M corpus s dest) *
        damping_factor + (1 - damping_factor) / (corpus.length : ℚ) := by
  unfold stepPR
  rw [corpus_sum_eq hnodup _ (fun s => pre s * M corpus s dest) ?_]
  intro p hp
  have hl : linksOf corpus p.1 = p.2 := linksOf_eq_of_mem hnodup hp
  simp only [M, hl]
  by_cases h1 : p.2.contains dest = true
  · rw [if_pos h1, if_pos h1, mul_one_div]
  · rw [if_neg h1, if_neg h1]
    by_cases h2 : p.2.length = 0
    · rw [if_pos h2, if_pos h2, mul_one_div]
    · rw [if_neg h2, if_neg h2, mul_zero]

theorem M_nonneg (corpus : Corpus) (s dest : String) :
    0 ≤ M corpus s dest := by
  unfold M
  split
  · positivity
  · split
    · positivity
    · exact le_refl 0

theorem linksOf_mem_keys {corpus : Corpus}
    (hnodup : (corpus.map Prod.fst).Nodup) {s : String}
    (hs : s ∈ corpus.map Prod.fst) :
    ∃ p ∈ corpus, p.1 = s ∧ linksOf corpus s = p.2 := by
  obtain ⟨p, hp, rfl⟩ := List.mem_map.mp hs
  exact ⟨p, hp, rfl, linksOf_eq_of_mem hnodup hp⟩

/-- Column-stochasticity of `M`: each source's outgoing weights over the
corpus pages sum to 1 (dangling pages emit uniformly). -/
theorem col_sum_one (corpus : Corpus) (hne : corpus ≠ [])
    (hnodup : (corpus.map Prod.fst).Nodup)
    (hlsub : ∀ p ∈ corpus, ∀ l ∈ p.2, l ∈ corpus.map Prod.fst)
    (hlnodup : ∀ p ∈ corpus, p.2.Nodup)
    {s : String} (hs : s ∈ (corpus.map Prod.fst).toFinset) :
    ∑ dest ∈ (corpus.map Prod.fst).toFinset, M corpus s dest = 1 := by
  have hn : ((corpus.length : ℚ)) ≠ 0 := by
    have : corpus.length ≠ 0 := fun h => hne (List.length_eq_zero.mp h)
    exact_mod_cast this
  have hkeycard : (corpus.map Prod.fst).toFinset.card = corpus.length := by
    rw [List.toFinset_card_of_nodup hnodup, List.length_map]
  obtain ⟨p, hp, hp1, hlinks⟩ :=
    linksOf_mem_keys hnodup (List.mem_toFinset.mp hs)
  by_cases hL : (linksOf corpus s).length = 0
  · have hnil : linksOf corpus s = [] := List.length_eq_zero.mp hL
    have hM : ∀ dest, M corpus s dest = 1 / (corpus.length : ℚ) := by
      intro dest
      unfold M
      rw [hnil]
      simp
    rw [Finset.sum_congr rfl fun dest _ => hM dest, Finset.sum_const,
      hkeycard, nsmul_eq_mul]
    field_simp
  · have hLq : (((linksOf corpus s).length : ℚ)) ≠ 0 := by
      exact_mod_cast hL
    have hM : ∀ dest, M corpus s dest =
        if dest ∈ linksOf corpus s then
          1 / ((linksOf corpus s).length : ℚ) else 0 := by
      intro dest
      unfold M
      by_cases hmem : dest ∈ linksOf corpus s
      · rw [if_pos (pr_contains_iff_mem.mpr hmem), if_pos hmem]
      · rw [if_neg (fun hc => hmem (pr_contains_iff_mem.mp hc)),
          if_neg hL, if_neg hmem]
    rw [Finset.sum_congr rfl fun dest _ => hM dest, Finset.sum_ite,
      Finset.sum_const, Finset.sum_const, smul_zero, add_zero]
    have hfilter : (corpus.map Prod.fst).toFinset.filter
        (fun k => k ∈ linksOf corpus s) = (linksOf corpus s).toFinset := by
      ext k
      simp only [Finset.mem_filter, List.mem_toFinset]
      refine ⟨fun h => h.2, fun h => ⟨?_, h⟩⟩
      rw [hlinks] at h
      exact hlsub p hp k h
    rw [hfilter, List.toFinset_card_of_nodup (hlinks ▸ hlnodup p hp),
      nsmul_eq_mul]
    field_simp


/-- L1 contraction of one sweep: the damping factor contracts the total
variation between any two rank vectors. -/
theorem dist_step (corpus : Corpus) {damping_factor : ℚ}
    (hd0 : 0 ≤ damping_factor) (hne : corpus ≠ [])
    (hnodup : (corpus.map Prod.fst).Nodup)
    (hlsub : ∀ p ∈ corpus, ∀ l ∈ p.2, l ∈ corpus.map Prod.fst)
    (hlnodup : ∀ p ∈ corpus, p.2.Nodup) (x y : String → ℚ) :
    ∑ k ∈ (corpus.map Prod.fst).toFinset,
        |stepPR corpus damping_factor x k - stepPR corpus damping_factor y k| ≤
      damping_factor * ∑ s ∈ (corpus.map Prod.fst).toFinset, |x s - y s| := by
  have hdiff : ∀ k, stepPR corpus damping_factor x k -
      stepPR corpus damping_factor y k =
      (∑ s ∈ (corpus.map Prod.fst).toFinset, (x s - y s) * M corpus s k) *
        damping_factor := by
    intro k
    have key : (∑ s ∈ (corpus.map Prod.fst).toFinset, x s * M corpus s k) -
        (∑ s ∈ (corpus.map Prod.fst).toFinset, y s * M corpus s k) =
        ∑ s ∈ (corpus.map Prod.fst).toFinset, (x s - y s) * M corpus s k := by
      rw [← Finset.sum_sub_distrib]
      exact Finset.sum_congr rfl fun s _ => (sub_mul _ _ _).symm
    rw [stepPR_eq_sum corpus damping_factor hnodup x k,
      stepPR_eq_sum corpus damping_factor hnodup y k, ← key]
    ring
  calc ∑ k ∈ (corpus.map Prod.fst).toFinset,
        |stepPR corpus damping_factor x k - stepPR corpus damping_factor y k|
      = ∑ k ∈ (corpus.map Prod.fst).toFinset,
          |∑ s ∈ (corpus.map Prod.fst).toFinset, (x s - y s) * M corpus s k| *
            damping_factor := by
        refine Finset.sum_congr rfl fun k _ => ?_
        rw [hdiff k, abs_mul, abs_of_nonneg hd0]
    _ ≤ ∑ k ∈ (corpus.map Prod.fst).toFinset,
          ((∑ s ∈ (corpus.map Prod.fst).toFinset, |x s - y s| * M corpus s k) *
            damping_factor) := by
        refine Finset.sum_le_sum fun k _ => ?_
        refine mul_le_mul_of_nonneg_right ?_ hd0
        calc |∑ s ∈ (corpus.map Prod.fst).toFinset, (x s - y s) * M corpus s k|
            ≤ ∑ s ∈ (corpus.map Prod.fst).toFinset,
                |(x s - y s) * M corpus s k| :=
              Finset.abs_sum_le_sum_abs _ _
          _ = ∑ s ∈ (corpus.map Prod.fst).toFinset,
                |x s - y s| * M corpus s k := by
              refine Finset.sum_congr rfl fun s _ => ?_
              rw [abs_mul, abs_of_nonneg (M_nonneg corpus s k)]
    _ = (∑ s ∈ (corpus.map Prod.fst).toFinset,
          |x s - y s| * ∑ k ∈ (corpus.map Prod.fst).toFinset, M corpus s k) *
            damping_factor := by
        rw [← Finset.sum_mul]
        congr 1
        rw [Finset.sum_comm]
        refine Finset.sum_congr rfl fun s _ => ?_
        rw [← Finset.mul_sum]
    _ = (∑ s ∈ (corpus.map Prod.fst).toFinset, |x s - y s|) *
          damping_factor := by
        refine congrArg (· * damping_factor) ?_
        refine Finset.sum_congr rfl fun s hs => ?_
        rw [col_sum_one corpus hne hnodup hlsub hlnodup hs, mul_one]
    _ = damping_factor * ∑ s ∈ (corpus.map Prod.fst).toFinset, |x s - y s| :=
        mul_comm _ _

theorem stepPR_nonneg (corpus : Corpus) {damping_factor : ℚ}
    (hd0 : 0 ≤ damping_factor) (hd1 : damping_factor ≤ 1)
    {pre : String → ℚ}
    (hpre : ∀ k ∈ (corpus.map Prod.fst).toFinset, 0 ≤ pre k) (k : String) :
    0 ≤ stepPR corpus damping_factor pre k := by
  unfold stepPR
  have hsum : (0 : ℚ) ≤ (corpus.map fun src =>
      if src.2.contains k then pre src.1 / (src.2.length : ℚ)
      else if src.2.length = 0 then pre src.1 / (corpus.length : ℚ)
      else 0).sum := by
    apply List.sum_nonneg
    intro t ht
    obtain ⟨src, hsrc, rfl⟩ := List.mem_map.mp ht
    have hs1 : 0 ≤ pre src.1 := hpre src.1
      (List.mem_toFinset.mpr (List.mem_map.mpr ⟨src, hsrc, rfl⟩))
    split
    · positivity
    · split
      · positivity
      · exact le_refl 0
  have hconst : (0 : ℚ) ≤ (1 - damping_factor) / (corpus.length : ℚ) := by
    apply div_nonneg (by linarith)
    positivity
  exact add_nonneg (mul_nonneg hsum hd0) hconst

theorem stepPR_sum (corpus : Corpus) (hne : corpus ≠ [])
    (hnodup : (corpus.map Prod.fst).Nodup)
    (hlsub : ∀ p ∈ corpus, ∀ l ∈ p.2, l ∈ corpus.map Prod.fst)
    (hlnodup : ∀ p ∈ corpus, p.2.Nodup) (damping_factor : ℚ)
    (pre : String → ℚ) :
    ∑ k ∈ (corpus.map Prod.fst).toFinset, stepPR corpus damping_factor pre k =
      damping_factor * (∑ s ∈ (corpus.map Prod.fst).toFinset, pre s) +
        (1 - damping_factor) := by
  have hn : ((corpus.length : ℚ)) ≠ 0 := by
    have : corpus.length ≠ 0 := fun h => hne (List.length_eq_zero.mp h)
    exact_mod_cast this
  have hkeycard : (corpus.map Prod.fst).toFinset.card = corpus.length := by
    rw [List.toFinset_card_of_nodup hnodup, List.length_map]
  calc ∑ k ∈ (corpus.map Prod.fst).toFinset, stepPR corpus damping_factor pre k
      = ∑ k ∈ (corpus.map Prod.fst).toFinset,
          ((∑ s ∈ (corpus.map Prod.fst).toFinset, pre s * M corpus s k) *
            damping_factor + (1 - damping_factor) / (corpus.length : ℚ)) :=
        Finset.sum_congr rfl fun k _ => stepPR_eq_sum corpus _ hnodup pre k
    _ = (∑ k ∈ (corpus.map Prod.fst).toFinset,
          ∑ s ∈ (corpus.map Prod.fst).toFinset, pre s * M corpus s k) *
            damping_factor +
          ((corpus.map Prod.fst).toFinset.card : ℚ) *
            ((1 - damping_factor) / (corpus.length : ℚ)) := by
        rw [Finset.sum_add_distrib, ← Finset.sum_mul, Finset.sum_const,
          nsmul_eq_mul]
    _ = (∑ s ∈ (corpus.map Prod.fst).toFinset,
          pre s * ∑ k ∈ (corpus.map Prod.fst).toFinset, M corpus s k) *
            damping_factor + (1 - damping_factor) := by
        congr 1
        · congr 1
          rw [Finset.sum_comm]
          exact Finset.sum_congr rfl fun s _ => (Finset.mul_sum _ _ _).symm
        · rw [hkeycard]
          field_simp
    _ = damping_factor * (∑ s ∈ (corpus.map Prod.fst).toFinset, pre s) +
          (1 - damping_factor) := by
        congr 1
        rw [mul_comm]
        congr 1
        refine Finset.sum_congr rfl fun s hs => ?_
        rw [col_sum_one corpus hne hnodup hlsub hlnodup hs, mul_one]

/-- The loop invariant: nonnegative ranks summing to 1 over the corpus. -/
def GoodR (corpus : Corpus) (r : String → ℚ) : Prop :=
  (∀ k ∈ (corpus.map Prod.fst).toFinset, 0 ≤ r k) ∧
  ∑ k ∈ (corpus.map Prod.fst).toFinset, r k = 1

theorem GoodR_init (corpus : Corpus) (hne : corpus ≠ [])
    (hnodup : (corpus.map Prod.fst).Nodup) :
    GoodR corpus fun _ => 1 / (corpus.length : ℚ) := by
  have hn : ((corpus.length : ℚ)) ≠ 0 := by
    have : corpus.length ≠ 0 := fun h => hne (List.length_eq_zero.mp h)
    exact_mod_cast this
  constructor
  · intro k _
    positivity
  · rw [Finset.sum_const, List.toFinset_card_of_nodup hnodup,
      List.length_map, nsmul_eq_mul]
    field_simp

theorem GoodR_step (corpus : Corpus) (hne : corpus ≠ [])
    (hnodup : (corpus.map Prod.fst).Nodup)
    (hlsub : ∀ p ∈ corpus, ∀ l ∈ p.2, l ∈ corpus.map Prod.fst)
    (hlnodup : ∀ p ∈ corpus, p.2.Nodup) {damping_factor : ℚ}
    (hd0 : 0 ≤ damping_factor) (hd1 : damping_factor ≤ 1)
    {pre : String → ℚ} (hpre : GoodR corpus pre) :
    GoodR corpus (stepPR corpus damping_factor pre) := by
  constructor
  · intro k _
    exact stepPR_nonneg corpus hd0 hd1 hpre.1 k
  · rw [stepPR_sum corpus hne hnodup hlsub hlnodup, hpre.2]
    ring

theorem loopPR_good (corpus : Corpus) (hne : corpus ≠ [])
    (hnodup : (corpus.map Prod.fst).Nodup)
    (hlsub : ∀ p ∈ corpus, ∀ l ∈ p.2, l ∈ corpus.map Prod.fst)
    (hlnodup : ∀ p ∈ corpus, p.2.Nodup) {damping_factor : ℚ}
    (hd0 : 0 ≤ damping_factor) (hd1 : damping_factor ≤ 1) :
    ∀ (fuel : Nat) (x r : String → ℚ), GoodR corpus x →
      loopPR corpus damping_factor fuel x = some r → GoodR corpus r := by
  intro fuel
  induction fuel with
  | zero => intro x r _ h; cases h
  | succ fuel ih =>
    intro x r hx h
    simp only [loopPR] at h
    split at h
    · cases h
      exact hx
    · exact ih _ r
        (GoodR_step corpus hne hnodup hlsub hlnodup hd0 hd1 hx) h

theorem abs_diff_le_two {corpus : Corpus} {x y : String → ℚ}
    (hx : GoodR corpus x) (hy : GoodR corpus y) :
    ∑ k ∈ (corpus.map Prod.fst).toFinset, |x k - y k| ≤ 2 := by
  calc ∑ k ∈ (corpus.map Prod.fst).toFinset, |x k - y k|
      ≤ ∑ k ∈ (corpus.map Prod.fst).toFinset, (|x k| + |y k|) := by
        refine Finset.sum_le_sum fun k _ => ?_
        calc |x k - y k| ≤ |x k - 0| + |0 - y k| := abs_sub_le _ _ _
          _ = |x k| + |y k| := by rw [sub_zero, zero_sub, abs_neg]
    _ = ∑ k ∈ (corpus.map Prod.fst).toFinset, (x k + y k) := by
        refine Finset.sum_congr rfl fun k hk => ?_
        rw [abs_of_nonneg (hx.1 k hk), abs_of_nonneg (hy.1 k hk)]
    _ = 2 := by
        rw [Finset.sum_add_distrib, hx.2, hy.2]
        norm_num

theorem loopPR_terminates (corpus : Corpus) (hne : corpus ≠ [])
    (hnodup : (corpus.map Prod.fst).Nodup)
    (hlsub : ∀ p ∈ corpus, ∀ l ∈ p.2, l ∈ corpus.map Prod.fst)
    (hlnodup : ∀ p ∈ corpus, p.2.Nodup) {damping_factor : ℚ}
    (hd0 : 0 ≤ damping_factor) :
    ∀ (fuel : Nat) (x : String → ℚ),
      (∑ k ∈ (corpus.map Prod.fst).toFinset,
        |stepPR corpus damping_factor x k - x k|) * damping_factor ^ fuel <
          1 / 1000 →
      ∃ r, loopPR corpus damping_factor (fuel + 1) x = some r := by
  intro fuel
  induction fuel with
  | zero =>
    intro x h
    rw [pow_zero, mul_one] at h
    have hconv : converged corpus x (stepPR corpus damping_factor x) = true := by
      rw [converged, List.all_eq_true]
      intro p hp
      rw [decide_eq_true_eq]
      calc |stepPR corpus damping_factor x p.1 - x p.1|
          ≤ ∑ k ∈ (corpus.map Prod.fst).toFinset,
              |stepPR corpus damping_factor x k - x k| :=
            Finset.single_le_sum
              (f := fun k => |stepPR corpus damping_factor x k - x k|)
              (fun k _ => abs_nonneg _)
              (List.mem_toFinset.mpr (List.mem_map.mpr ⟨p, hp, rfl⟩))
        _ < 1 / 1000 := h
    refine ⟨x, ?_⟩
    simp only [loopPR]
    rw [if_pos hconv]
  | succ fuel ih =>
    intro x h
    by_cases hconv : converged corpus x (stepPR corpus damping_factor x) = true
    · refine ⟨x, ?_⟩
      simp only [loopPR]
      rw [if_pos hconv]
    · have hbound : (∑ k ∈ (corpus.map Prod.fst).toFinset,
          |stepPR corpus damping_factor (stepPR corpus damping_factor x) k -
            stepPR corpus damping_factor x k|) * damping_factor ^ fuel <
            1 / 1000 := by
        have hc := dist_step corpus hd0 hne hnodup hlsub hlnodup
          (stepPR corpus damping_factor x) x
        calc (∑ k ∈ (corpus.map Prod.fst).toFinset,
            |stepPR corpus damping_factor (stepPR corpus damping_factor x) k -
              stepPR corpus damping_factor x k|) * damping_factor ^ fuel
            ≤ (damping_factor * ∑ s ∈ (corpus.map Prod.fst).toFinset,
                |stepPR corpus damping_factor x s - x s|) *
                damping_factor ^ fuel := by
              exact mul_le_mul_of_nonneg_right hc (pow_nonneg hd0 fuel)
          _ = (∑ s ∈ (corpus.map Prod.fst).toFinset,
                |stepPR corpus damping_factor x s - x s|) *
                damping_factor ^ (fuel + 1) := by
              rw [pow_succ]
              ring
          _ < 1 / 1000 := h
      obtain ⟨r, hr⟩ := ih (stepPR corpus damping_factor x) hbound
      refine ⟨r, ?_⟩
      simp only [loopPR]
      rw [if_neg hconv]
      exact hr


/-- C3: for every non-empty corpus whose link sets stay inside the corpus,
`iterate_pagerank` at damping factor 0.85 terminates — the 0.001
convergence test is met within 50 sweeps, uniformly in the corpus — and
returns a rank for every page, each ≥ 0, with the ranks over all pages
summing to exactly 1 (hence within ±1e-3 of 1). -/
theorem iterate_pagerank_spec (corpus : Corpus) (hne : corpus ≠ [])
    (hnodup : (corpus.map Prod.fst).Nodup)
    (hlsub : ∀ p ∈ corpus, ∀ l ∈ p.2, l ∈ corpus.map Prod.fst)
    (hlnodup : ∀ p ∈ corpus, p.2.Nodup) :
    ∃ r, iterate_pagerank corpus (85 / 100) 50 = some r ∧
      (∀ p ∈ corpus, 0 ≤ r p.1) ∧
      (corpus.map fun p => r p.1).sum = 1 ∧
      |(corpus.map fun p => r p.1).sum - 1| ≤ 1 / 1000 := by
  have hd0 : (0 : ℚ) ≤ 85 / 100 := by norm_num
  have hd1 : (85 / 100 : ℚ) ≤ 1 := by norm_num
  have hinit := GoodR_init corpus hne hnodup
  have hstep1 := GoodR_step corpus hne hnodup hlsub hlnodup hd0 hd1 hinit
  have hdist : (∑ k ∈ (corpus.map Prod.fst).toFinset,
      |stepPR corpus (85 / 100) (fun _ => 1 / (corpus.length : ℚ)) k -
        (fun _ : String => 1 / (corpus.length : ℚ)) k|) *
        (85 / 100 : ℚ) ^ 49 < 1 / 1000 := by
    calc (∑ k ∈ (corpus.map Prod.fst).toFinset,
        |stepPR corpus (85 / 100) (fun _ => 1 / (corpus.length : ℚ)) k -
          (fun _ : String => 1 / (corpus.length : ℚ)) k|) *
          (85 / 100 : ℚ) ^ 49
        ≤ 2 * (85 / 100 : ℚ) ^ 49 :=
          mul_le_mul_of_nonneg_right (abs_diff_le_two hstep1 hinit)
            (by positivity)
      _ < 1 / 1000 := by norm_num
  obtain ⟨r, hr⟩ := loopPR_terminates corpus hne hnodup hlsub hlnodup hd0 49
    (fun _ => 1 / (corpus.length : ℚ)) hdist
  have hr50 : loopPR corpus (85 / 100) 50
      (fun _ => 1 / (corpus.length : ℚ)) = some r := hr
  have hgood := loopPR_good corpus hne hnodup hlsub hlnodup hd0 hd1 50 _ r
    hinit hr50
  refine ⟨r, hr50, ?_, ?_, ?_⟩
  · intro p hp
    exact hgood.1 p.1 (List.mem_toFinset.mpr (List.mem_map.mpr ⟨p, hp, rfl⟩))
  · rw [corpus_sum_eq hnodup _ r fun p _ => rfl]
    exact hgood.2
  · rw [corpus_sum_eq hnodup _ r fun p _ => rfl, hgood.2]
    norm_num

/-- Witness for `iterate_pagerank_spec` on the symmetric two-page corpus. -/
theorem iterate_pagerank_spec_witness :
    ∃ r, iterate_pagerank [("a", ["b"]), ("b", ["a"])] (85 / 100) 50 =
        some r ∧
      (∀ p ∈ ([("a", ["b"]), ("b", ["a"])] : Corpus), 0 ≤ r p.1) ∧
      (([("a", ["b"]), ("b", ["a"])] : Corpus).map fun p => r p.1).sum = 1 ∧
      |(([("a", ["b"]), ("b", ["a"])] : Corpus).map fun p => r p.1).sum - 1| ≤
        1 / 1000 :=
  iterate_pagerank_spec [("a", ["b"]), ("b", ["a"])] (by decide) (by decide)
    (by decide) (by decide)

end PageRank
